import Mathlib

/-!
Shallow embedding of the Epstein List Highlighter content script
(`src/content.js`, plus the older single-list variant `src/unnamed/part_000`).

Text is modelled as `List Char`.  A compiled name pattern is the sequence of
its characters, where every literal space has been generalised to "one or more
whitespace characters" (`escapeRegex(name).replace(/ /g, "\\s+")`); all other
characters match literally (the regex escaping makes them literal).  The
JavaScript regex engine's ordered-alternation, leftmost-match, greedy
backtracking semantics are modelled directly.  The `i` flag is modelled as
`Char.toLower`-equality (exact for the ASCII range), and `\s` as the ASCII
whitespace characters.
-/

namespace EpsteinHL

/-- Model of the JavaScript character class `\s` (ASCII part: space, tab,
newline, carriage return, vertical tab, form feed). -/
def jsWs (c : Char) : Bool :=
  c = ' ' || c = '\t' || c = '\n' || c = '\r' || c = '\x0b' || c = '\x0c'

/-- One element of a compiled name pattern: a literal character, or the
`\s+` token that a literal space is rewritten to by `makePattern`. -/
inductive Tok where
  | lit (c : Char)
  | ws
deriving DecidableEq, Repr

/-- Character comparison under the selected regex flags: `toLower`-equality
when the `i` flag is present, plain equality otherwise. -/
def charMatch (ci : Bool) (p x : Char) : Bool :=
  if ci then p.toLower = x.toLower else p = x

/-- Greedy backtracking match of one compiled name pattern against the start
of `s`; returns the number of characters consumed.  `Tok.ws` consumes one or
more whitespace characters, preferring longer runs first, exactly as the JS
engine treats `\s+`. -/
def matchToks (ci : Bool) : List Tok → List Char → Option Nat
  | [], _ => some 0
  | _ :: _, [] => none
  | .lit c :: ts, x :: xs =>
      if charMatch ci c x then (matchToks ci ts xs).map (· + 1) else none
  | .ws :: ts, x :: xs =>
      if jsWs x then
        match matchToks ci (.ws :: ts) xs with
        | some n => some (n + 1)
        | none => (matchToks ci ts xs).map (· + 1)
      else none

/-- Ordered alternation at the current position: try the compiled patterns in
order, return the index of the first one that matches together with the length
it consumes (JS alternation is first-match, not longest-match). -/
def altMatch (ci : Bool) : List (List Tok) → List Char → Option (Nat × Nat)
  | [], _ => none
  | p :: ps, s =>
      match matchToks ci p s with
      | some len => some (0, len)
      | none => (altMatch ci ps s).map (fun r => (r.1 + 1, r.2))

/-- Leftmost match search (`regex.exec`): the smallest start offset at which
some alternative matches, together with the alternative's index and the match
length.  The end-of-string position is also tried, as the JS engine does. -/
def firstMatch (ci : Bool) (pats : List (List Tok)) : List Char → Option (Nat × Nat × Nat)
  | [] =>
      match altMatch ci pats [] with
      | some (j, len) => some (0, j, len)
      | none => none
  | c :: rest =>
      match altMatch ci pats (c :: rest) with
      | some (j, len) => some (0, j, len)
      | none => (firstMatch ci pats rest).map (fun r => (r.1 + 1, r.2.1, r.2.2))

/-- One record of the input dataset (`{name, anchor}`). -/
structure NameEntry where
  name : List Char
  anchor : String
deriving DecidableEq, Repr

/-- Stable insertion of an entry into a list sorted by name length descending:
the entry goes before the first strictly shorter name and after all names of
length at least its own, which is where a stable sort places it. -/
def insDesc (e : NameEntry) : List NameEntry → List NameEntry
  | [] => [e]
  | f :: l => if e.name.length ≤ f.name.length then f :: insDesc e l else e :: f :: l

/-- `[...nameList].sort((a, b) => b.name.length - a.name.length)`: the stable
sort by name length descending (JS `Array.prototype.sort` is stable, and a
stable sort by a fixed key is unique, so stable insertion sort models it
exactly). -/
def sortByLenDesc : List NameEntry → List NameEntry
  | [] => []
  | e :: l => insDesc e (sortByLenDesc l)

/-- `escapeRegex(e.name).replace(/ /g, "\\s+")`: every literal space becomes
the `\s+` token, every other character a literal. -/
def nameToks (name : List Char) : List Tok :=
  name.map (fun c => if c = ' ' then Tok.ws else Tok.lit c)

/-- The older variant's transform (`part_000`): its
`.replace(/\\ /g, "\\s+")` looks for a backslash followed by a space, which
`escapeRegex` never produces, so the replacement never fires and every
character of the name — spaces included — stays a literal. -/
def nameToksOld (name : List Char) : List Tok :=
  name.map Tok.lit

/-- `makePattern`: sort the entries by name length descending, compile each
name, and join them into one ordered alternation.  An empty entry list yields
the regex `"()"`, i.e. a single empty alternative (which matches the empty
string everywhere). -/
def makePattern (entries : List NameEntry) : List (List Tok) :=
  match sortByLenDesc entries with
  | [] => [[]]
  | es => es.map (fun e => nameToks e.name)

/-- The older variant's pattern construction (same sort, literal spaces). -/
def makePatternOld (entries : List NameEntry) : List (List Tok) :=
  match sortByLenDesc entries with
  | [] => [[]]
  | es => es.map (fun e => nameToksOld e.name)

/-- `str.replace(/\s+/g, " ")`: collapse every maximal whitespace run to a
single space (structural helper carrying whether the previous character was
whitespace). -/
def collapseWsAux (prevWs : Bool) : List Char → List Char
  | [] => []
  | c :: rest =>
      if jsWs c then (if prevWs then [] else [' ']) ++ collapseWsAux true rest
      else c :: collapseWsAux false rest

def collapseWs (l : List Char) : List Char :=
  collapseWsAux false l

/-- `String.prototype.trim()`: strip leading and trailing whitespace. -/
def trimWs (l : List Char) : List Char :=
  ((l.dropWhile jsWs).reverse.dropWhile jsWs).reverse

/-- The normalisation in `lookupAnchor`:
`matchedText.replace(/\s+/g, " ").trim()`. -/
def normalizeWs (l : List Char) : List Char :=
  trimWs (collapseWs l)

def lowerL (l : List Char) : List Char :=
  l.map Char.toLower

/-- `anchorMapCI` lookup: the map is keyed by `entry.name.toLowerCase()`, and
`Map.set` lets a later entry overwrite an earlier one with the same key, so a
lookup finds the last entry whose lowercased name equals the key. -/
def anchorMapCI (entries : List NameEntry) (key : List Char) : Option String :=
  (entries.reverse.find? (fun e => lowerL e.name = key)).map (fun e => e.anchor)

/-- `anchorMapCS` lookup: keyed by the exact name. -/
def anchorMapCS (entries : List NameEntry) (key : List Char) : Option String :=
  (entries.reverse.find? (fun e => e.name = key)).map (fun e => e.anchor)

/-- `lookupAnchor(matchedText, caseSensitive)`. -/
def lookupAnchor (ciEntries csEntries : List NameEntry) (caseSensitive : Bool)
    (matchedText : List Char) : Option String :=
  let normalised := normalizeWs matchedText
  if caseSensitive then anchorMapCS csEntries normalised
  else anchorMapCI ciEntries (lowerL normalised)

def WIKI_BASE : String :=
  "https://en.wikipedia.org/wiki/List_of_people_named_in_the_Epstein_files#"

def HL_CLASS : String := "epstein-highlight"

def SKIP_TAGS : List String :=
  ["SCRIPT", "STYLE", "TEXTAREA", "INPUT", "SELECT",
   "CODE", "PRE", "NOSCRIPT", "IFRAME", "SVG"]

/-- One node of the replacement fragment built by `applyPattern`: a plain text
node, or a highlight span (`createHighlight`) carrying the literal matched
text and the resolved URL.  (The span's title, role, cursor style and click
handler do not influence any later scan and are not modelled.) -/
inductive Seg where
  | plain (s : List Char)
  | marker (lit : List Char) (url : String)
deriving DecidableEq, Repr

/-- Result of `applyPattern` on one text node: `nomatch` when the function
returns `false` and the node is left untouched, `replaced segs` when the node
is replaced by the fragment `segs`.  `timeout` models the real code failing to
terminate: the JS `exec` loop does not advance past a zero-length match, so we
run it on fuel and surface fuel exhaustion explicitly. -/
inductive ScanRes where
  | timeout
  | nomatch
  | replaced (segs : List Seg)
deriving DecidableEq, Repr

/-- The `while ((match = regex.exec(text)) !== null)` loop of `applyPattern`.
`s` is the text from `regex.lastIndex` on; `pend` is the text between the
local `lastIndex` and `regex.lastIndex` (skipped-over unresolved matches and
the text before them); `acc` are the fragment children built so far; `dm` is
`didMatch`.  `look` is the anchor lookup combined with the code's truthiness
test `if (!anchor) continue` (so an empty-string anchor also counts as a
miss). -/
def scanLoop (ci : Bool) (pats : List (List Tok)) (look : List Char → Option String) :
    Nat → List Char → List Char → List Seg → Bool → ScanRes
  | 0, _, _, _, _ => .timeout
  | fuel + 1, s, pend, acc, dm =>
      match firstMatch ci pats s with
      | none =>
          if dm then
            .replaced (acc ++ (if pend ++ s = [] then [] else [.plain (pend ++ s)]))
          else .nomatch
      | some (i, _, len) =>
          let lit := (s.drop i).take len
          match look lit with
          | none => scanLoop ci pats look fuel (s.drop (i + len)) (pend ++ s.take (i + len)) acc dm
          | some a =>
              let pre := pend ++ s.take i
              scanLoop ci pats look fuel (s.drop (i + len)) []
                (acc ++ (if pre = [] then [] else [.plain pre]) ++ [.marker lit (WIKI_BASE ++ a)])
                true

/-- The truthiness test applied to the result of `lookupAnchor`
(`if (!anchor) continue`): `undefined` and the empty string are both misses. -/
def jsTruthy : Option String → Option String
  | some a => if a = "" then none else some a
  | none => none

/-- `applyPattern(textNode, regex, caseSensitive)` as a pure function on the
node's text.  The leading `regex.test` is the `isSome` check; the loop runs on
fuel `t.length + 1`, which suffices whenever every alternative is nonempty
(proved below); with an empty alternative the real loop never terminates and
the model times out. -/
def applyPattern (ci : Bool) (pats : List (List Tok)) (look : List Char → Option String)
    (t : List Char) : ScanRes :=
  if (firstMatch ci pats t).isSome then scanLoop ci pats look (t.length + 1) t [] [] false
  else .nomatch

/-- The dataset as the content script sees it: the main (case-insensitive)
list and the optional case-sensitive list (`EPSTEIN_LIST` /
`EPSTEIN_LIST_CASE_SENSITIVE`; an absent case-sensitive list is the empty
list, which also disables `csPattern`). -/
structure Config where
  ci : List NameEntry
  cs : List NameEntry
deriving Repr

def mainPats (cfg : Config) : List (List Tok) := makePattern cfg.ci

def csPats (cfg : Config) : List (List Tok) := makePattern cfg.cs

def lookCI (cfg : Config) (m : List Char) : Option String :=
  jsTruthy (lookupAnchor cfg.ci cfg.cs false m)

def lookCS (cfg : Config) (m : List Char) : Option String :=
  jsTruthy (lookupAnchor cfg.ci cfg.cs true m)

def applyCI (cfg : Config) (t : List Char) : ScanRes :=
  applyPattern true (mainPats cfg) (lookCI cfg) t

def applyCS (cfg : Config) (t : List Char) : ScanRes :=
  applyPattern false (csPats cfg) (lookCS cfg) t

/-- `highlightTextNode`: try the main case-insensitive pattern; only if it did
not replace the node, and a case-sensitive pattern exists, try that one. -/
def highlightTextNode (cfg : Config) (t : List Char) : ScanRes :=
  match applyCI cfg t with
  | .replaced segs => .replaced segs
  | .timeout => .timeout
  | .nomatch => if cfg.cs ≠ [] then applyCS cfg t else .nomatch

/-! ### The older single-list variant (`src/unnamed/part_000`)

Its pattern keeps spaces literal (see `nameToksOld`), its `lookupAnchor`
always lowercases (single, case-insensitive partition), and its per-node loop
has no `didMatch` flag and no lookup check: every match becomes a span, a
failed lookup producing the URL `WIKI_BASE + "undefined"`. -/

/-- The old loop body: emit the text before the match, then a span for every
match, resolved or not. -/
def oldScanLoop (pats : List (List Tok)) (look : List Char → Option String) :
    Nat → List Char → List Seg → ScanRes
  | 0, _, _ => .timeout
  | fuel + 1, s, acc =>
      match firstMatch true pats s with
      | none => .replaced (acc ++ (if s = [] then [] else [.plain s]))
      | some (i, _, len) =>
          let lit := (s.drop i).take len
          let url := WIKI_BASE ++ (match look lit with | some a => a | none => "undefined")
          oldScanLoop pats look fuel (s.drop (i + len))
            (acc ++ (if i = 0 then [] else [.plain (s.take i)]) ++ [.marker lit url])

/-- The old variant's raw lookup (no truthiness filtering of the result, since
the old code never tests the anchor). -/
def oldLook (entries : List NameEntry) (m : List Char) : Option String :=
  anchorMapCI entries (lowerL (normalizeWs m))

/-- The old variant's `highlightTextNode` on a node's text: if the pattern
does not match at all the node is left untouched, otherwise it is always
replaced. -/
def oldHighlightTextNode (entries : List NameEntry) (t : List Char) : ScanRes :=
  if (firstMatch true (makePatternOld entries) t).isSome then
    oldScanLoop (makePatternOld entries) (oldLook entries) (t.length + 1) t []
  else .nomatch

/-! ### Document model and subtree walker -/

/-- A DOM node: a text node, or an element with a tag name, class list and
children.  (Attributes other than the class list play no role in the scan.) -/
inductive DNode where
  | text (s : List Char)
  | elem (tag : String) (classes : List String) (children : List DNode)
deriving Repr

/-- The node `createHighlight` builds for a `Seg`: plain segments become text
nodes, markers become `<span class="epstein-highlight">` elements containing
the literal matched text.  (The span's URL dataset attribute, title and click
handler never influence a scan and are dropped at the tree level; the URL is
retained at the `Seg` level.) -/
def segNode : Seg → DNode
  | .plain p => .text p
  | .marker lit _ => .elem "SPAN" [HL_CLASS] [.text lit]

mutual

/-- `processSubtree(root)`: walk the subtree, and replace every accepted text
node by the fragment `highlightTextNode` produces for it.  `inHL` records
whether some ancestor (up to and above the root) carries `HL_CLASS`, which is
what `parent.closest("." + HL_CLASS)` tests.  The code collects all text nodes
first and then mutates; since replacing one text node does not affect any
other collected node, the two-phase traversal equals this one-pass pure
function. -/
def scanSubtree (cfg : Config) (inHL : Bool) : DNode → DNode
  | .text s => .text s
  | .elem tag cls ch =>
      .elem tag cls (scanChildren cfg tag (inHL || cls.contains HL_CLASS) ch)

/-- Process the children of an element with tag `ptag`; a text child is
accepted exactly when the `acceptNode` filter accepts it: the parent tag is
not in `SKIP_TAGS`, no ancestor carries `HL_CLASS`, and the text is not
whitespace-only. -/
def scanChildren (cfg : Config) (ptag : String) (inHL : Bool) : List DNode → List DNode
  | [] => []
  | .text s :: rest =>
      (if SKIP_TAGS.contains ptag || inHL || trimWs s = [] then [DNode.text s]
       else
         match highlightTextNode cfg s with
         | .replaced segs => segs.map segNode
         | _ => [DNode.text s]) ++ scanChildren cfg ptag inHL rest
  | .elem tag cls ch :: rest =>
      scanSubtree cfg inHL (.elem tag cls ch) :: scanChildren cfg ptag inHL rest

end

mutual

/-- Number of highlight-marker elements in a subtree (elements carrying
`HL_CLASS`). -/
def countMarkersTree : DNode → Nat
  | .text _ => 0
  | .elem _ cls ch => (if cls.contains HL_CLASS then 1 else 0) + countMarkersList ch

def countMarkersList : List DNode → Nat
  | [] => 0
  | n :: rest => countMarkersTree n + countMarkersList rest

end

/-! ### Mutation watcher -/

/-- One change record handed to the `MutationObserver` callback.  The observer
is registered with `{ childList: true, subtree: true }`, so records carry node
insertions and removals only; in-place character edits of existing text nodes
produce no record under this registration. -/
structure MutationRecord where
  addedNodes : List DNode
  removedNodes : List DNode

/-- The callback's per-node test: element node, tag not excluded, and not
itself carrying the highlight class. -/
def isScanTarget : DNode → Bool
  | .text _ => false
  | .elem tag cls _ => !SKIP_TAGS.contains tag && !cls.contains HL_CLASS

/-- The nodes on which one callback invocation calls `processSubtree`: every
added node of every record that passes `isScanTarget`; removed nodes are never
inspected. -/
def watcherTargets (batch : List MutationRecord) : List DNode :=
  batch.flatMap (fun r => r.addedNodes.filter isScanTarget)

/-! ### Observation helpers used by the claims -/

/-- The text a fragment carries, in order: plain text plus the literal text of
each highlight span. -/
def segsText (segs : List Seg) : List Char :=
  segs.flatMap (fun sg => match sg with | .plain p => p | .marker lit _ => lit)

/-- Number of highlight spans in a fragment. -/
def countMarkers (segs : List Seg) : Nat :=
  (segs.filter (fun sg => match sg with | .marker _ _ => true | .plain _ => false)).length

/-- Number of resolved matches in the `exec` chain over `t`: follow the
leftmost-match chain, counting the matches whose lookup succeeds and skipping
the others, on the same fuel discipline as `scanLoop`. -/
def chainResCount (ci : Bool) (pats : List (List Tok)) (look : List Char → Option String) :
    Nat → List Char → Nat
  | 0, _ => 0
  | fuel + 1, s =>
      match firstMatch ci pats s with
      | none => 0
      | some (i, _, len) =>
          match look ((s.drop i).take len) with
          | some _ => 1 + chainResCount ci pats look fuel (s.drop (i + len))
          | none => chainResCount ci pats look fuel (s.drop (i + len))

/-! ### Well-formedness predicates used to compare the two variants -/

/-- Head of the list, if any, is not whitespace. -/
def headNotWs : List Char → Bool
  | [] => true
  | d :: _ => !jsWs d

/-- Every whitespace character is a plain space and no two whitespace
characters are adjacent. -/
def singleSpaced : List Char → Bool
  | [] => true
  | c :: rest => (!jsWs c || (c == ' ' && headNotWs rest)) && singleSpaced rest

/-- A well-formed dataset name: nonempty, single-spaced, and not starting or
ending with whitespace. -/
def nameOK (nm : List Char) : Bool :=
  singleSpaced nm && headNotWs nm && headNotWs nm.reverse && !nm.isEmpty

/-! ### Skipped-text characterization (for re-scan idempotence)

A plain text gap the loop emits consists, relative to its own continuation in
the document, of positions where the alternation fails and of matched spans
whose lookup misses.  `MissCh p s` records this for a prefix `p` followed by
continuation `s`; truncation lemmas below show the property survives cutting
the continuation off, which is exactly what happens when the gap becomes a
standalone text node. -/

inductive MissCh (ci : Bool) (pats : List (List Tok)) (look : List Char → Option String) :
    List Char → List Char → Prop
  | nil (s : List Char) : MissCh ci pats look [] s
  | fail (c : Char) (p s : List Char) :
      altMatch ci pats (c :: (p ++ s)) = none →
      MissCh ci pats look p s →
      MissCh ci pats look (c :: p) s
  | miss (p s : List Char) (j len : Nat) :
      altMatch ci pats (p ++ s) = some (j, len) →
      len ≤ p.length →
      look ((p ++ s).take len) = none →
      MissCh ci pats look (p.drop len) s →
      MissCh ci pats look p s

/-- Declarative characterization of an occurrence of a compiled name: literal
characters must agree under the partition's character comparison (exact
equality for the case-sensitive partition, `toLower`-equality for the
case-insensitive one), and each space of the name corresponds to a nonempty
whitespace run. -/
inductive NameOcc (ci : Bool) : List Char → List Char → Prop
  | nil : NameOcc ci [] []
  | lit (c x : Char) (nm m : List Char) :
      c ≠ ' ' → charMatch ci c x = true → NameOcc ci nm m →
      NameOcc ci (c :: nm) (x :: m)
  | sp (run : List Char) (nm m : List Char) :
      run ≠ [] → (∀ c ∈ run, jsWs c = true) → NameOcc ci nm m →
      NameOcc ci (' ' :: nm) (run ++ m)

/-! ### Concrete datasets used by the claims -/

/-- The dataset of the spec's longest-match scenario. -/
def D_C1 : Config :=
  { ci := [⟨"Bill Clinton".data, "Bill_Clinton"⟩, ⟨"Bill".data, "Bill_X"⟩], cs := [] }

/-- A two-partition dataset: one case-insensitive name, one case-sensitive. -/
def D_C2 : Config := { ci := [⟨"Alice".data, "A"⟩], cs := [⟨"Trump".data, "T"⟩] }

/-- A dataset with a malformed (empty-name) entry. -/
def D_C7 : Config := { ci := [⟨[], "Empty"⟩], cs := [] }

/-- A one-name dataset for the exclusion-zone counterexample. -/
def D_C8 : Config := { ci := [⟨"Bill".data, "B"⟩], cs := [] }

/-! ## Basic matcher lemmas -/

theorem matchToks_le_length {ci : Bool} :
    ∀ {p : List Tok} {s : List Char} {len : Nat},
      matchToks ci p s = some len → len ≤ s.length := by
  intro p s
  induction s generalizing p with
  | nil =>
      intro len h
      match p with
      | [] => simp [matchToks] at h; omega
      | _ :: _ => simp [matchToks] at h
  | cons x xs ih =>
      intro len h
      match p with
      | [] => simp [matchToks] at h; omega
      | .lit c :: ts =>
          simp only [matchToks] at h
          by_cases hc : charMatch ci c x = true
          · simp [hc] at h
            obtain ⟨n, hn, rfl⟩ := h
            have := ih hn
            simp; omega
          · simp [hc] at h
      | .ws :: ts =>
          simp only [matchToks] at h
          by_cases hw : jsWs x = true
          · simp [hw] at h
            match hm : matchToks ci (.ws :: ts) xs with
            | some n =>
                rw [hm] at h
                cases h
                have := ih hm
                simp; omega
            | none =>
                rw [hm] at h
                simp at h
                obtain ⟨n, hn, rfl⟩ := h
                have := ih hn
                simp; omega
          · simp [hw] at h

theorem matchToks_pos {ci : Bool} {p : List Tok} {s : List Char} {len : Nat}
    (hp : p ≠ []) (h : matchToks ci p s = some len) : 1 ≤ len := by
  match p, s with
  | [], _ => exact absurd rfl hp
  | _ :: _, [] => simp [matchToks] at h
  | .lit c :: ts, x :: xs =>
      simp only [matchToks] at h
      by_cases hc : charMatch ci c x = true
      · simp [hc] at h
        obtain ⟨n, _, rfl⟩ := h
        omega
      · simp [hc] at h
  | .ws :: ts, x :: xs =>
      simp only [matchToks] at h
      by_cases hw : jsWs x = true
      · simp [hw] at h
        match hm : matchToks ci (.ws :: ts) xs with
        | some n => rw [hm] at h; cases h; omega
        | none =>
            rw [hm] at h
            simp at h
            obtain ⟨n, _, rfl⟩ := h
            omega
      · simp [hw] at h

/-- Success is monotone under extension of the text: a match found inside a
prefix is still found (possibly with a different greedy length) in the full
text. -/
theorem matchToks_extend {ci : Bool} :
    ∀ {p : List Tok} {s : List Char} {m len : Nat},
      matchToks ci p (s.take m) = some len → ∃ n, matchToks ci p s = some n := by
  intro p s
  induction s generalizing p with
  | nil =>
      intro m len h
      simp at h
      exact ⟨len, h⟩
  | cons x xs ih =>
      intro m len h
      match p with
      | [] => exact ⟨0, rfl⟩
      | q :: ts =>
          match m with
          | 0 => simp [matchToks] at h
          | m + 1 =>
              simp only [List.take_succ_cons] at h
              match q with
              | .lit c =>
                  simp only [matchToks] at h ⊢
                  by_cases hc : charMatch ci c x = true
                  · simp only [hc, if_true, Option.map_eq_some'] at h
                    obtain ⟨n, hn, rfl⟩ := h
                    obtain ⟨n2, hn2⟩ := ih hn
                    exact ⟨n2 + 1, by simp [hc, hn2]⟩
                  · simp [hc] at h
              | .ws =>
                  simp only [matchToks] at h ⊢
                  by_cases hw : jsWs x = true
                  · simp only [hw, if_true] at h ⊢
                    match hm : matchToks ci (.ws :: ts) (xs.take m) with
                    | some n =>
                        obtain ⟨n2, hn2⟩ := ih hm
                        rw [hn2]
                        exact ⟨n2 + 1, rfl⟩
                    | none =>
                        rw [hm] at h
                        simp at h
                        obtain ⟨n, hn, rfl⟩ := h
                        obtain ⟨n2, hn2⟩ := ih hn
                        match hm2 : matchToks ci (.ws :: ts) xs with
                        | some k => exact ⟨k + 1, rfl⟩
                        | none => rw [hn2]; exact ⟨n2 + 1, rfl⟩
                  · simp [hw] at h

/-- The greedy match length is stable under truncation, as long as the
truncation keeps the whole matched span: every exploration branch the engine
tries before the winning one reads only characters the winner also stays
within or fails identically on both sides. -/
theorem matchToks_take {ci : Bool} :
    ∀ {p : List Tok} {s : List Char} {m len : Nat},
      matchToks ci p s = some len → len ≤ m → matchToks ci p (s.take m) = some len := by
  intro p s
  induction s generalizing p with
  | nil => intro m len h _; simpa using h
  | cons x xs ih =>
      intro m len h hle
      match p with
      | [] => simp [matchToks] at h ⊢; omega
      | .lit c :: ts =>
          simp only [matchToks] at h
          by_cases hc : charMatch ci c x = true
          · simp only [hc, if_true, Option.map_eq_some'] at h
            obtain ⟨n, hn, rfl⟩ := h
            match m with
            | 0 => omega
            | m + 1 =>
                have := ih (m := m) hn (by omega)
                simp only [List.take_succ_cons, matchToks, hc, if_true, this,
                  Option.map_some']
          · simp [hc] at h
      | .ws :: ts =>
          simp only [matchToks] at h
          by_cases hw : jsWs x = true
          · simp only [hw, if_true] at h
            match m with
            | 0 =>
                exfalso
                match hm : matchToks ci (.ws :: ts) xs with
                | some n => rw [hm] at h; cases h; omega
                | none =>
                    rw [hm] at h
                    simp at h
                    obtain ⟨n, _, rfl⟩ := h
                    omega
            | m + 1 =>
                simp only [List.take_succ_cons, matchToks, hw, if_true]
                match hm : matchToks ci (.ws :: ts) xs with
                | some n =>
                    rw [hm] at h
                    cases h
                    rw [ih (m := m) hm (by omega)]
                | none =>
                    rw [hm] at h
                    simp only [Option.map_eq_some'] at h
                    obtain ⟨n, hn, rfl⟩ := h
                    have hnone : matchToks ci (.ws :: ts) (xs.take m) = none := by
                      match hm2 : matchToks ci (.ws :: ts) (xs.take m) with
                      | none => rfl
                      | some k =>
                          obtain ⟨n2, hn2⟩ := matchToks_extend hm2
                          rw [hn2] at hm
                          cases hm
                    rw [hnone, ih (m := m) hn (by omega)]
                    rfl
          · simp [hw] at h

/-! ## Alternation lemmas -/

theorem altMatch_cons_some {ci : Bool} {p : List Tok} {ps : List (List Tok)}
    {s : List Char} {len : Nat} (h : matchToks ci p s = some len) :
    altMatch ci (p :: ps) s = some (0, len) := by
  simp [altMatch, h]

theorem altMatch_get {ci : Bool} :
    ∀ {pats : List (List Tok)} {s : List Char} {j len : Nat},
      altMatch ci pats s = some (j, len) →
      ∃ p, pats.get? j = some p ∧ matchToks ci p s = some len := by
  intro pats
  induction pats with
  | nil => intro s j len h; simp [altMatch] at h
  | cons p ps ih =>
      intro s j len h
      simp only [altMatch] at h
      match hm : matchToks ci p s with
      | some l =>
          rw [hm] at h
          cases h
          exact ⟨p, rfl, hm⟩
      | none =>
          rw [hm] at h
          simp only [Option.map_eq_some'] at h
          obtain ⟨⟨j0, l0⟩, hj, he⟩ := h
          cases he
          obtain ⟨q, hq, hqm⟩ := ih hj
          exact ⟨q, by simpa using hq, hqm⟩

theorem altMatch_le_length {ci : Bool} {pats : List (List Tok)} {s : List Char}
    {j len : Nat} (h : altMatch ci pats s = some (j, len)) : len ≤ s.length := by
  obtain ⟨p, _, hm⟩ := altMatch_get h
  exact matchToks_le_length hm

theorem altMatch_take_some {ci : Bool} :
    ∀ {pats : List (List Tok)} {s : List Char} {j len m : Nat},
      altMatch ci pats s = some (j, len) → len ≤ m →
      altMatch ci pats (s.take m) = some (j, len) := by
  intro pats
  induction pats with
  | nil => intro s j len m h _; simp [altMatch] at h
  | cons p ps ih =>
      intro s j len m h hle
      simp only [altMatch] at h ⊢
      match hm : matchToks ci p s with
      | some l =>
          rw [hm] at h
          cases h
          rw [matchToks_take hm hle]
      | none =>
          rw [hm] at h
          simp only [Option.map_eq_some'] at h
          obtain ⟨⟨j0, l0⟩, hj, he⟩ := h
          cases he
          have hnone : matchToks ci p (s.take m) = none := by
            match hm2 : matchToks ci p (s.take m) with
            | none => rfl
            | some k =>
                obtain ⟨n2, hn2⟩ := matchToks_extend hm2
                rw [hn2] at hm
                cases hm
          rw [hnone, ih hj hle]
          rfl

theorem altMatch_take_none {ci : Bool} :
    ∀ {pats : List (List Tok)} {s : List Char} {m : Nat},
      altMatch ci pats s = none → altMatch ci pats (s.take m) = none := by
  intro pats
  induction pats with
  | nil => intro s m _; simp [altMatch]
  | cons p ps ih =>
      intro s m h
      simp only [altMatch] at h ⊢
      match hm : matchToks ci p s with
      | some l => rw [hm] at h; cases h
      | none =>
          rw [hm] at h
          have hnone : matchToks ci p (s.take m) = none := by
            match hm2 : matchToks ci p (s.take m) with
            | none => rfl
            | some k =>
                obtain ⟨n2, hn2⟩ := matchToks_extend hm2
                rw [hn2] at hm
                cases hm
          rw [hnone]
          simp only [Option.map_eq_none']
          exact ih (by simpa using h)

/-! ## Leftmost-search lemmas -/

theorem firstMatch_of_altMatch {ci : Bool} {pats : List (List Tok)} {s : List Char}
    {j len : Nat} (h : altMatch ci pats s = some (j, len)) :
    firstMatch ci pats s = some (0, j, len) := by
  match s with
  | [] => simp [firstMatch, h]
  | c :: rest => simp [firstMatch, h]

theorem firstMatch_none_all {ci : Bool} {pats : List (List Tok)} :
    ∀ {s : List Char}, firstMatch ci pats s = none →
      ∀ q, altMatch ci pats (s.drop q) = none := by
  intro s
  induction s with
  | nil =>
      intro h q
      simp only [firstMatch] at h
      match hm : altMatch ci pats [] with
      | some (j, len) => rw [hm] at h; cases h
      | none => simpa using hm
  | cons c rest ih =>
      intro h q
      simp only [firstMatch] at h
      match hm : altMatch ci pats (c :: rest) with
      | some (j, len) => rw [hm] at h; cases h
      | none =>
          rw [hm] at h
          simp only [Option.map_eq_none'] at h
          match q with
          | 0 => simpa using hm
          | q + 1 => simpa using ih h q

theorem firstMatch_spec {ci : Bool} {pats : List (List Tok)} :
    ∀ {s : List Char} {i j len : Nat},
      firstMatch ci pats s = some (i, j, len) →
      altMatch ci pats (s.drop i) = some (j, len) ∧
        ∀ q < i, altMatch ci pats (s.drop q) = none := by
  intro s
  induction s with
  | nil =>
      intro i j len h
      simp only [firstMatch] at h
      match hm : altMatch ci pats [] with
      | some (j0, len0) =>
          rw [hm] at h
          cases h
          exact ⟨by simpa using hm, by omega⟩
      | none => rw [hm] at h; cases h
  | cons c rest ih =>
      intro i j len h
      simp only [firstMatch] at h
      match hm : altMatch ci pats (c :: rest) with
      | some (j0, len0) =>
          rw [hm] at h
          cases h
          exact ⟨by simpa using hm, by omega⟩
      | none =>
          rw [hm] at h
          simp only [Option.map_eq_some'] at h
          obtain ⟨⟨i0, j0, len0⟩, hr, he⟩ := h
          cases he
          obtain ⟨h1, h2⟩ := ih hr
          refine ⟨by simpa using h1, ?_⟩
          intro q hq
          match q with
          | 0 => simpa using hm
          | q + 1 => simpa using h2 q (by omega)

theorem firstMatch_start_le {ci : Bool} {pats : List (List Tok)} :
    ∀ {s : List Char} {i j len : Nat},
      firstMatch ci pats s = some (i, j, len) → i ≤ s.length := by
  intro s
  induction s with
  | nil =>
      intro i j len h
      simp only [firstMatch] at h
      match hm : altMatch ci pats [] with
      | some r => rw [hm] at h; cases h; omega
      | none => rw [hm] at h; cases h
  | cons c rest ih =>
      intro i j len h
      simp only [firstMatch] at h
      match hm : altMatch ci pats (c :: rest) with
      | some r => rw [hm] at h; cases h; omega
      | none =>
          rw [hm] at h
          simp only [Option.map_eq_some'] at h
          obtain ⟨⟨i0, j0, len0⟩, hr, he⟩ := h
          cases he
          have := ih hr
          simp only [List.length_cons]
          omega

/-- The whole winning match fits inside the text. -/
theorem firstMatch_bound {ci : Bool} {pats : List (List Tok)} {s : List Char}
    {i j len : Nat} (h : firstMatch ci pats s = some (i, j, len)) :
    i + len ≤ s.length := by
  have h1 := (firstMatch_spec h).1
  have h2 : len ≤ (s.drop i).length := altMatch_le_length h1
  have h3 := firstMatch_start_le h
  simp only [List.length_drop] at h2
  omega

/-! ## Sorting and pattern-compilation lemmas -/

theorem mem_insDesc {e f : NameEntry} : ∀ {l : List NameEntry},
    f ∈ insDesc e l ↔ f = e ∨ f ∈ l := by
  intro l
  induction l with
  | nil => simp [insDesc]
  | cons g l ih =>
      simp only [insDesc]
      by_cases h : e.name.length ≤ g.name.length
      · simp only [h, if_true, List.mem_cons, ih]
        tauto
      · simp only [h, if_false, List.mem_cons]

theorem mem_sortByLenDesc {f : NameEntry} : ∀ {l : List NameEntry},
    f ∈ sortByLenDesc l ↔ f ∈ l := by
  intro l
  induction l with
  | nil => simp [sortByLenDesc]
  | cons e l ih => simp [sortByLenDesc, mem_insDesc, ih]

theorem length_insDesc {e : NameEntry} : ∀ {l : List NameEntry},
    (insDesc e l).length = l.length + 1 := by
  intro l
  induction l with
  | nil => rfl
  | cons g l ih =>
      simp only [insDesc]
      by_cases h : e.name.length ≤ g.name.length
      · simp [h, ih]
      · simp [h]

theorem sortByLenDesc_eq_nil {l : List NameEntry} :
    sortByLenDesc l = [] ↔ l = [] := by
  match l with
  | [] => simp [sortByLenDesc]
  | e :: l =>
      simp only [sortByLenDesc]
      constructor
      · intro h
        have := length_insDesc (e := e) (l := sortByLenDesc l)
        rw [h] at this
        simp at this
      · intro h; cases h

/-- With a nonempty dataset of nonempty names, every compiled alternative is
nonempty. -/
theorem makePattern_nonempty {entries : List NameEntry} (hne : entries ≠ [])
    (hn : ∀ e ∈ entries, e.name ≠ []) :
    ∀ p ∈ makePattern entries, p ≠ [] := by
  intro p hp
  unfold makePattern at hp
  match hs : sortByLenDesc entries with
  | [] => exact absurd (sortByLenDesc_eq_nil.mp hs) hne
  | f :: fs =>
      rw [hs] at hp
      simp only [List.mem_map] at hp
      obtain ⟨e, he, rfl⟩ := hp
      have : e ∈ entries := mem_sortByLenDesc.mp (hs ▸ he)
      have hne2 := hn e this
      simp only [nameToks, ne_eq, List.map_eq_nil_iff]
      exact hne2

theorem matchToks_nil_text {ci : Bool} {p : List Tok} (hp : p ≠ []) :
    matchToks ci p [] = none := by
  match p with
  | [] => exact absurd rfl hp
  | q :: ts => simp [matchToks]

theorem altMatch_nil_text {ci : Bool} {pats : List (List Tok)}
    (hp : ∀ p ∈ pats, p ≠ []) : altMatch ci pats [] = none := by
  induction pats with
  | nil => rfl
  | cons p ps ih =>
      simp only [altMatch, matchToks_nil_text (hp p (by simp))]
      rw [ih (fun q hq => hp q (by simp [hq]))]
      rfl

/-! ## Fragment observation lemmas -/

theorem segsText_append {a b : List Seg} : segsText (a ++ b) = segsText a ++ segsText b := by
  simp [segsText]

theorem segsText_nil : segsText [] = [] := rfl

theorem countMarkers_append {a b : List Seg} :
    countMarkers (a ++ b) = countMarkers a + countMarkers b := by
  simp [countMarkers]

/-! ## Scan-loop lemmas -/

/-- Splitting a list at a match: prefix, matched span, remainder. -/
theorem take_take_drop_split (s : List Char) (i len : Nat) :
    s.take i ++ ((s.drop i).take len ++ s.drop (i + len)) = s := by
  have h1 : s.drop (i + len) = (s.drop i).drop len := by
    rw [List.drop_drop, Nat.add_comm]
  rw [h1, List.take_append_drop, List.take_append_drop]

/-- C4's core invariant: whenever the loop replaces the node, the text carried
by the produced fragment is exactly the original text. -/
theorem scanLoop_segsText {ci : Bool} {pats : List (List Tok)} {look : List Char → Option String} :
    ∀ {fuel : Nat} {s pend : List Char} {acc : List Seg} {dm : Bool} {segs : List Seg},
      scanLoop ci pats look fuel s pend acc dm = .replaced segs →
      segsText segs = segsText acc ++ pend ++ s := by
  intro fuel
  induction fuel with
  | zero => intro s pend acc dm segs h; simp [scanLoop] at h
  | succ fuel ih =>
      intro s pend acc dm segs h
      simp only [scanLoop] at h
      match hf : firstMatch ci pats s with
      | none =>
          rw [hf] at h
          by_cases hdm : dm = true
          · rw [hdm] at h
            simp only [if_true] at h
            cases h
            by_cases he : pend ++ s = []
            · rw [if_pos he, segsText_append, List.append_assoc, he]
              simp [segsText]
            · rw [if_neg he, segsText_append]
              simp [segsText, List.append_assoc]
          · simp only [Bool.not_eq_true] at hdm
            rw [hdm] at h
            simp at h
      | some (i, j, len) =>
          rw [hf] at h
          simp only at h
          match hl : look ((s.drop i).take len) with
          | none =>
              rw [hl] at h
              have := ih h
              rw [this]
              conv_rhs => rw [← take_take_drop_split s i len]
              simp [List.append_assoc, List.take_add]
          | some a =>
              rw [hl] at h
              have := ih h
              rw [this, segsText_append, segsText_append]
              have hpre : segsText (if pend ++ s.take i = [] then ([] : List Seg)
                  else [.plain (pend ++ s.take i)]) = pend ++ s.take i := by
                by_cases hp : pend ++ s.take i = []
                · rw [if_pos hp, hp]; rfl
                · rw [if_neg hp]; simp [segsText]
              rw [hpre]
              conv_rhs => rw [← take_take_drop_split s i len]
              simp [segsText, List.append_assoc]

/-- With nonempty alternatives, fuel `s.length + 1` never runs out: every
match consumes at least one character. -/
theorem scanLoop_noTimeout {ci : Bool} {pats : List (List Tok)} {look : List Char → Option String}
    (hp : ∀ p ∈ pats, p ≠ []) :
    ∀ {fuel : Nat} {s pend : List Char} {acc : List Seg} {dm : Bool},
      s.length < fuel → scanLoop ci pats look fuel s pend acc dm ≠ .timeout := by
  intro fuel
  induction fuel with
  | zero => intro s pend acc dm h; omega
  | succ fuel ih =>
      intro s pend acc dm hlen
      simp only [scanLoop]
      match hf : firstMatch ci pats s with
      | none =>
          by_cases hdm : dm = true <;> simp [hdm]
      | some (i, j, len) =>
          have hs : s ≠ [] := by
            intro he
            rw [he] at hf
            simp only [firstMatch, altMatch_nil_text hp] at hf
            cases hf
          have hlpos : 1 ≤ len := by
            obtain ⟨halt, _⟩ := firstMatch_spec hf
            obtain ⟨p, hget, hm⟩ := altMatch_get halt
            exact matchToks_pos (hp p (List.get?_mem hget)) hm
          have hbound := firstMatch_bound hf
          have hrec : (s.drop (i + len)).length < fuel := by
            simp only [List.length_drop]
            have : 1 ≤ s.length := by
              match s with
              | [] => exact absurd rfl hs
              | _ :: _ => simp
            omega
          dsimp only
          match hl : look ((s.drop i).take len) with
          | none => dsimp only; exact ih hrec
          | some a => dsimp only; exact ih hrec

/-- The loop reports `nomatch` exactly when `didMatch` stayed false, i.e. when
no match in the chain resolved. -/
theorem scanLoop_nomatch_iff {ci : Bool} {pats : List (List Tok)} {look : List Char → Option String}
    (hp : ∀ p ∈ pats, p ≠ []) :
    ∀ {fuel : Nat} {s pend : List Char} {acc : List Seg} {dm : Bool},
      s.length < fuel →
      (scanLoop ci pats look fuel s pend acc dm = .nomatch ↔
        (dm = false ∧ chainResCount ci pats look fuel s = 0)) := by
  intro fuel
  induction fuel with
  | zero => intro s pend acc dm h; omega
  | succ fuel ih =>
      intro s pend acc dm hlen
      simp only [scanLoop, chainResCount]
      match hf : firstMatch ci pats s with
      | none =>
          by_cases hdm : dm = true
          · simp [hdm]
          · simp only [Bool.not_eq_true] at hdm
            simp [hdm]
      | some (i, j, len) =>
          have hs : s ≠ [] := by
            intro he
            rw [he] at hf
            simp only [firstMatch, altMatch_nil_text hp] at hf
            cases hf
          have hlpos : 1 ≤ len := by
            obtain ⟨halt, _⟩ := firstMatch_spec hf
            obtain ⟨p, hget, hm⟩ := altMatch_get halt
            exact matchToks_pos (hp p (List.get?_mem hget)) hm
          have hrec : (s.drop (i + len)).length < fuel := by
            simp only [List.length_drop]
            have : 1 ≤ s.length := by
              match s with
              | [] => exact absurd rfl hs
              | _ :: _ => simp
            omega
          dsimp only
          match hl : look ((s.drop i).take len) with
          | none => dsimp only; exact ih hrec
          | some a =>
              dsimp only
              rw [ih hrec]
              simp

/-- The loop produces exactly one highlight span per resolved match. -/
theorem scanLoop_markers {ci : Bool} {pats : List (List Tok)} {look : List Char → Option String} :
    ∀ {fuel : Nat} {s pend : List Char} {acc : List Seg} {dm : Bool} {segs : List Seg},
      scanLoop ci pats look fuel s pend acc dm = .replaced segs →
      countMarkers segs = countMarkers acc + chainResCount ci pats look fuel s := by
  intro fuel
  induction fuel with
  | zero => intro s pend acc dm segs h; simp [scanLoop] at h
  | succ fuel ih =>
      intro s pend acc dm segs h
      simp only [scanLoop] at h
      simp only [chainResCount]
      match hf : firstMatch ci pats s with
      | none =>
          rw [hf] at h
          dsimp only
          by_cases hdm : dm = true
          · rw [hdm] at h
            simp only [if_true] at h
            cases h
            rw [countMarkers_append]
            by_cases he : pend ++ s = []
            · simp [he, countMarkers]
            · simp [he, countMarkers]
          · simp only [Bool.not_eq_true] at hdm
            rw [hdm] at h
            simp at h
      | some (i, j, len) =>
          rw [hf] at h
          dsimp only at h ⊢
          match hl : look ((s.drop i).take len) with
          | none =>
              rw [hl] at h
              dsimp only
              exact ih h
          | some a =>
              rw [hl] at h
              dsimp only
              have := ih h
              rw [this, countMarkers_append, countMarkers_append]
              have hpre : countMarkers (if pend ++ s.take i = [] then ([] : List Seg)
                  else [.plain (pend ++ s.take i)]) = 0 := by
                by_cases hq : pend ++ s.take i = [] <;> simp [hq, countMarkers]
              rw [hpre]
              simp [countMarkers]
              omega

/-! ## Skipped-text characterization lemmas (for re-scan idempotence) -/

theorem missCh_append {ci : Bool} {pats : List (List Tok)} {look : List Char → Option String}
    {p a r : List Char} (h1 : MissCh ci pats look p (a ++ r))
    (h2 : MissCh ci pats look a r) : MissCh ci pats look (p ++ a) r := by
  generalize hq : a ++ r = q at h1
  induction h1 with
  | nil => simpa using h2
  | fail c p' s halt _ ih =>
      subst hq
      refine MissCh.fail c (p' ++ a) r ?_ (ih rfl)
      rw [List.append_assoc]
      exact halt
  | miss p' s j len halt hlen hlook _ ih =>
      subst hq
      refine MissCh.miss (p' ++ a) r j len ?_ ?_ ?_ ?_
      · rw [List.append_assoc]; exact halt
      · simp only [List.length_append]; omega
      · rw [List.append_assoc]; exact hlook
      · have hd : (p' ++ a).drop len = p'.drop len ++ a := by
          rw [List.drop_append_of_le_length hlen]
        rw [hd]
        exact ih rfl

theorem missCh_trunc {ci : Bool} {pats : List (List Tok)} {look : List Char → Option String}
    {p s : List Char} (h : MissCh ci pats look p s) : MissCh ci pats look p [] := by
  induction h with
  | nil => exact MissCh.nil []
  | fail c p' s halt _ ih =>
      refine MissCh.fail c p' [] ?_ ih
      have he : (c :: p') = (c :: (p' ++ s)).take (p'.length + 1) := by
        rw [List.take_succ_cons, List.take_append_of_le_length (Nat.le_refl _),
          List.take_length]
      rw [List.append_nil, he]
      exact altMatch_take_none halt
  | miss p' s j len halt hlen hlook _ ih =>
      refine MissCh.miss p' [] j len ?_ hlen ?_ ih
      · have he : p' = (p' ++ s).take p'.length := by
          rw [List.take_append_of_le_length (Nat.le_refl _), List.take_length]
        rw [List.append_nil]
        conv_lhs => rw [he]
        exact altMatch_take_some halt (by omega)
      · rw [List.append_nil, ← List.take_append_of_le_length hlen]
        exact hlook

theorem missCh_take_fails {ci : Bool} {pats : List (List Tok)} {look : List Char → Option String} :
    ∀ {i : Nat} {s : List Char},
      (∀ q < i, altMatch ci pats (s.drop q) = none) →
      MissCh ci pats look (s.take i) (s.drop i) := by
  intro i
  induction i with
  | zero => intro s _; exact MissCh.nil s
  | succ k ih =>
      intro s h
      match s with
      | [] => exact MissCh.nil []
      | c :: rest =>
          simp only [List.take_succ_cons, List.drop_succ_cons]
          refine MissCh.fail c (rest.take k) (rest.drop k) ?_ ?_
          · rw [List.take_append_drop]
            simpa using h 0 (by omega)
          · exact ih (fun q hq => by simpa using h (q + 1) (by omega))

theorem missCh_all_fail {ci : Bool} {pats : List (List Tok)} {look : List Char → Option String}
    {s : List Char} (h : ∀ q, altMatch ci pats (s.drop q) = none) :
    MissCh ci pats look s [] := by
  have h2 : MissCh ci pats look (s.take s.length) (s.drop s.length) :=
    missCh_take_fails (fun q _ => h q)
  simpa using h2

theorem missCh_block {ci : Bool} {pats : List (List Tok)} {look : List Char → Option String}
    {s : List Char} {i j len : Nat}
    (hf : firstMatch ci pats s = some (i, j, len))
    (hl : look ((s.drop i).take len) = none) :
    MissCh ci pats look (s.take (i + len)) (s.drop (i + len)) := by
  obtain ⟨halt, hfails⟩ := firstMatch_spec hf
  have hlu : len ≤ (s.drop i).length := altMatch_le_length halt
  rw [List.length_drop] at hlu
  have hspan : MissCh ci pats look ((s.drop i).take len) ((s.drop i).drop len) := by
    refine MissCh.miss _ _ j len ?_ ?_ ?_ ?_
    · rw [List.take_append_drop]; exact halt
    · rw [List.length_take, List.length_drop]; omega
    · rw [List.take_append_drop]; exact hl
    · rw [List.drop_eq_nil_of_le (by rw [List.length_take]; omega)]
      exact MissCh.nil _
  have hpre : MissCh ci pats look (s.take i) (s.drop i) := missCh_take_fails hfails
  have happ := missCh_append (by rw [List.take_append_drop]; exact hpre) hspan
  have e1 : s.take i ++ (s.drop i).take len = s.take (i + len) := (List.take_add s i len).symm
  have e2 : (s.drop i).drop len = s.drop (i + len) := List.drop_drop len i s
  rw [e1, e2] at happ
  exact happ

theorem firstMatch_cons_none {ci : Bool} {pats : List (List Tok)} {c : Char} {rest : List Char}
    (h : altMatch ci pats (c :: rest) = none) :
    firstMatch ci pats (c :: rest) =
      (firstMatch ci pats rest).map (fun r => (r.1 + 1, r.2.1, r.2.2)) := by
  simp [firstMatch, h]

theorem chainRes_cons_fail {ci : Bool} {pats : List (List Tok)} {look : List Char → Option String}
    {c : Char} {p : List Char} (h : altMatch ci pats (c :: p) = none) :
    ∀ fuel, chainResCount ci pats look fuel (c :: p) = chainResCount ci pats look fuel p := by
  intro fuel
  match fuel with
  | 0 => rfl
  | fuel + 1 =>
      simp only [chainResCount, firstMatch_cons_none h]
      match hx : firstMatch ci pats p with
      | none => rfl
      | some (i, j, len) =>
          simp only [Option.map_some']
          have e1 : (c :: p).drop (i + 1) = p.drop i := by simp
          have e2 : (c :: p).drop (i + 1 + len) = p.drop (i + len) := by
            rw [show i + 1 + len = (i + len) + 1 by omega, List.drop_succ_cons]
          simp only [e1, e2]

theorem chainResCount_zero_of_missCh {ci : Bool} {pats : List (List Tok)}
    {look : List Char → Option String} (hp : ∀ q ∈ pats, q ≠ []) {p : List Char}
    (h : MissCh ci pats look p []) :
    ∀ fuel, chainResCount ci pats look fuel p = 0 := by
  have key : ∀ {p s0}, MissCh ci pats look p s0 → s0 = [] →
      ∀ fuel, chainResCount ci pats look fuel p = 0 := by
    intro p s0 h
    induction h with
    | nil s =>
        intro _ fuel
        match fuel with
        | 0 => rfl
        | fuel + 1 => simp [chainResCount, firstMatch, altMatch_nil_text hp]
    | fail c p' s halt _ ih =>
        intro hs fuel
        subst hs
        rw [List.append_nil] at halt
        rw [chainRes_cons_fail halt fuel]
        exact ih rfl fuel
    | miss p' s j len halt hlen hlook _ ih =>
        intro hs fuel
        subst hs
        rw [List.append_nil] at halt hlook
        match fuel with
        | 0 => rfl
        | fuel + 1 =>
            simp only [chainResCount, firstMatch_of_altMatch halt]
            simp only [List.drop_zero, Nat.zero_add, hlook]
            exact ih rfl fuel
  exact key h rfl

/-- Every plain segment the loop emits is miss-chain text relative to the
empty continuation — re-scanning it as a standalone node can resolve
nothing. -/
theorem scanLoop_plains {ci : Bool} {pats : List (List Tok)} {look : List Char → Option String} :
    ∀ {fuel : Nat} {s pend : List Char} {acc : List Seg} {dm : Bool} {segs : List Seg},
      scanLoop ci pats look fuel s pend acc dm = .replaced segs →
      MissCh ci pats look pend s →
      (∀ p, .plain p ∈ acc → MissCh ci pats look p []) →
      ∀ p, .plain p ∈ segs → MissCh ci pats look p [] := by
  intro fuel
  induction fuel with
  | zero => intro s pend acc dm segs h _ _; simp [scanLoop] at h
  | succ fuel ih =>
      intro s pend acc dm segs h hpend hacc
      simp only [scanLoop] at h
      match hf : firstMatch ci pats s with
      | none =>
          rw [hf] at h
          have hrem : MissCh ci pats look (pend ++ s) [] := by
            have hs : MissCh ci pats look s [] :=
              missCh_all_fail (firstMatch_none_all hf)
            exact missCh_append (by rw [List.append_nil]; exact hpend) hs
          by_cases hdm : dm = true
          · rw [hdm] at h
            simp only [if_true] at h
            cases h
            intro p hmem
            rw [List.mem_append] at hmem
            rcases hmem with hmem | hmem
            · exact hacc p hmem
            · by_cases he : pend ++ s = []
              · rw [if_pos he] at hmem
                simp at hmem
              · rw [if_neg he] at hmem
                simp only [List.mem_singleton, Seg.plain.injEq] at hmem
                subst hmem
                exact hrem
          · simp only [Bool.not_eq_true] at hdm
            rw [hdm] at h
            simp at h
      | some (i, j, len) =>
          rw [hf] at h
          dsimp only at h
          match hl : look ((s.drop i).take len) with
          | none =>
              rw [hl] at h
              refine ih h ?_ hacc
              have hblk := missCh_block hf hl
              exact missCh_append (by rw [List.take_append_drop]; exact hpend) hblk
          | some a =>
              rw [hl] at h
              have hpre : MissCh ci pats look (pend ++ s.take i) [] := by
                have h1 : MissCh ci pats look (s.take i) (s.drop i) :=
                  missCh_take_fails (firstMatch_spec hf).2
                have h2 := missCh_append (by rw [List.take_append_drop]; exact hpend) h1
                exact missCh_trunc h2
              refine ih h (MissCh.nil _) ?_
              intro p hmem
              rw [List.mem_append, List.mem_append] at hmem
              rcases hmem with (hmem | hmem) | hmem
              · exact hacc p hmem
              · by_cases he : pend ++ s.take i = []
                · rw [if_pos he] at hmem
                  simp at hmem
                · rw [if_neg he] at hmem
                  simp only [List.mem_singleton, Seg.plain.injEq] at hmem
                  subst hmem
                  exact hpre
              · simp at hmem

/-! ## applyPattern-level characterizations -/

theorem applyPattern_nomatch_iff {ci : Bool} {pats : List (List Tok)}
    {look : List Char → Option String} {t : List Char} (hp : ∀ p ∈ pats, p ≠ []) :
    applyPattern ci pats look t = .nomatch ↔
      chainResCount ci pats look (t.length + 1) t = 0 := by
  unfold applyPattern
  by_cases hf : (firstMatch ci pats t).isSome
  · rw [if_pos hf]
    have h2 : (scanLoop ci pats look (t.length + 1) t [] [] false = ScanRes.nomatch ↔
        (false = false ∧ chainResCount ci pats look (t.length + 1) t = 0)) :=
      scanLoop_nomatch_iff hp (by omega)
    rw [h2]
    simp
  · rw [if_neg hf]
    rw [Option.not_isSome_iff_eq_none] at hf
    simp [chainResCount, hf]

theorem applyPattern_plains {ci : Bool} {pats : List (List Tok)}
    {look : List Char → Option String} {t : List Char} {segs : List Seg}
    (h : applyPattern ci pats look t = .replaced segs) :
    ∀ p, .plain p ∈ segs → MissCh ci pats look p [] := by
  unfold applyPattern at h
  by_cases hf : (firstMatch ci pats t).isSome
  · rw [if_pos hf] at h
    exact scanLoop_plains h (MissCh.nil _) (fun p hp => by simp at hp)
  · rw [if_neg hf] at h
    cases h

/-- The gap property: a plain segment of a replaced node is itself a no-match
segment for the same matcher. -/
theorem applyPattern_gap_nomatch {ci : Bool} {pats : List (List Tok)}
    {look : List Char → Option String} {t p : List Char} {segs : List Seg}
    (hp : ∀ q ∈ pats, q ≠ []) (h : applyPattern ci pats look t = .replaced segs)
    (hmem : .plain p ∈ segs) : applyPattern ci pats look p = .nomatch := by
  rw [applyPattern_nomatch_iff hp]
  exact chainResCount_zero_of_missCh hp (applyPattern_plains h p hmem) _

/-! ## Tree-level lemmas for re-scan idempotence -/

theorem scanChildren_append (cfg : Config) (ptag : String) (inHL : Bool) :
    ∀ (l1 l2 : List DNode),
      scanChildren cfg ptag inHL (l1 ++ l2) =
        scanChildren cfg ptag inHL l1 ++ scanChildren cfg ptag inHL l2 := by
  intro l1 l2
  induction l1 with
  | nil => rfl
  | cons c rest ih =>
      match c with
      | .text s => simp [scanChildren, ih, List.append_assoc]
      | .elem tag cls g => simp [scanChildren, ih]

/-- A produced highlight span is never re-entered: its own class makes the
`closest` test reject its text child. -/
theorem scanSubtree_marker (cfg : Config) (b : Bool) (lit : List Char) (url : String) :
    scanSubtree cfg b (segNode (.marker lit url)) = segNode (.marker lit url) := by
  have hc : ([HL_CLASS].contains HL_CLASS) = true := by decide
  show scanSubtree cfg b (.elem "SPAN" [HL_CLASS] [.text lit]) = _
  simp [scanSubtree, scanChildren, hc, segNode]

/-- With no case-sensitive partition, `highlightTextNode` is the
case-insensitive pass. -/
theorem highlightTextNode_cs_nil {cfg : Config} (h1 : cfg.cs = []) (t : List Char) :
    highlightTextNode cfg t = applyCI cfg t := by
  unfold highlightTextNode
  match h : applyCI cfg t with
  | .replaced segs => rfl
  | .timeout => rfl
  | .nomatch => simp [h1]

/-- Re-scanning the fragment produced for one replaced text node reproduces
it: spans are skipped via their class, and plain gaps contain no resolvable
match. -/
theorem segNodes_rescan (cfg : Config) (h1 : cfg.cs = [])
    (ptag : String) (hsk : SKIP_TAGS.contains ptag = false) :
    ∀ {segs : List Seg},
      (∀ p, .plain p ∈ segs → applyCI cfg p = .nomatch) →
      scanChildren cfg ptag false (segs.map segNode) = segs.map segNode := by
  intro segs
  induction segs with
  | nil => intro _; rfl
  | cons sg rest ih =>
      intro hplains
      have hrest := ih (fun p hmem => hplains p (by simp [hmem]))
      match sg with
      | .plain p =>
          show scanChildren cfg ptag false (DNode.text p :: rest.map segNode) = _
          by_cases htr : trimWs p = []
          · simp [scanChildren, hsk, htr, hrest, segNode]
          · have hnm : highlightTextNode cfg p = .nomatch := by
              rw [highlightTextNode_cs_nil h1]
              exact hplains p (by simp)
            simp [scanChildren, hsk, htr, hnm, hrest, segNode]
      | .marker lit url =>
          show scanChildren cfg ptag false
            (DNode.elem "SPAN" [HL_CLASS] [.text lit] :: rest.map segNode) = _
          have hspan := scanSubtree_marker cfg false lit url
          simp only [segNode] at hspan
          simp [scanChildren, hspan, hrest, segNode]

/-- Strong-induction core of the idempotence proof: with a single
case-insensitive partition of nonempty names, a second scan changes
nothing. -/
theorem scan_idem_aux (cfg : Config) (h1 : cfg.cs = [])
    (hp : ∀ p ∈ mainPats cfg, p ≠ []) :
    ∀ N : Nat,
      (∀ (b : Bool) (t : DNode), sizeOf t ≤ N →
        scanSubtree cfg b (scanSubtree cfg b t) = scanSubtree cfg b t) ∧
      (∀ (ptag : String) (inHL : Bool) (ch : List DNode), sizeOf ch ≤ N →
        scanChildren cfg ptag inHL (scanChildren cfg ptag inHL ch) =
          scanChildren cfg ptag inHL ch) := by
  intro N
  induction N using Nat.strong_induction_on with
  | _ N ih =>
      have P2 : ∀ (ptag : String) (inHL : Bool) (ch : List DNode), sizeOf ch ≤ N →
          scanChildren cfg ptag inHL (scanChildren cfg ptag inHL ch) =
            scanChildren cfg ptag inHL ch := by
        intro ptag inHL ch hsz
        match ch with
        | [] => rfl
        | .text s :: rest =>
            have hszr : sizeOf rest < N := by
              have : sizeOf (DNode.text s :: rest) = 1 + sizeOf (DNode.text s) + sizeOf rest := by
                simp
              have hpos : 1 ≤ sizeOf (DNode.text s) := by
                have : sizeOf (DNode.text s) = 1 + sizeOf s := by simp
                omega
              omega
            have hrest : scanChildren cfg ptag inHL (scanChildren cfg ptag inHL rest) =
                scanChildren cfg ptag inHL rest :=
              (ih (sizeOf rest) hszr).2 ptag inHL rest (Nat.le_refl _)
            show scanChildren cfg ptag inHL
              (scanChildren cfg ptag inHL (DNode.text s :: rest)) = _
            by_cases hacc : (SKIP_TAGS.contains ptag || inHL || decide (trimWs s = [])) = true
            · have he : scanChildren cfg ptag inHL (DNode.text s :: rest) =
                  DNode.text s :: scanChildren cfg ptag inHL rest := by
                simp only [scanChildren, if_pos hacc, List.singleton_append]
              rw [he]
              have he2 : scanChildren cfg ptag inHL
                  (DNode.text s :: scanChildren cfg ptag inHL rest) =
                  DNode.text s :: scanChildren cfg ptag inHL
                    (scanChildren cfg ptag inHL rest) := by
                simp only [scanChildren, if_pos hacc, List.singleton_append]
              rw [he2, hrest]
            · have hacc2 := hacc
              simp only [Bool.or_eq_true, decide_eq_true_eq, not_or,
                Bool.not_eq_true] at hacc2
              obtain ⟨⟨hsk, hin⟩, htr⟩ := hacc2
              subst hin
              match hh : highlightTextNode cfg s with
              | .replaced segs =>
                  have happly : applyCI cfg s = .replaced segs := by
                    rw [highlightTextNode_cs_nil h1] at hh
                    exact hh
                  have hplains : ∀ p, .plain p ∈ segs → applyCI cfg p = .nomatch := by
                    intro p hmem
                    exact applyPattern_gap_nomatch hp happly hmem
                  have he : scanChildren cfg ptag false (DNode.text s :: rest) =
                      segs.map segNode ++ scanChildren cfg ptag false rest := by
                    simp only [scanChildren]
                    rw [if_neg hacc, hh]
                  rw [he, scanChildren_append,
                    segNodes_rescan cfg h1 ptag hsk hplains, hrest]
              | .nomatch =>
                  have he : scanChildren cfg ptag false (DNode.text s :: rest) =
                      DNode.text s :: scanChildren cfg ptag false rest := by
                    simp only [scanChildren]
                    rw [if_neg hacc, hh]
                    rfl
                  rw [he]
                  have he2 : scanChildren cfg ptag false
                      (DNode.text s :: scanChildren cfg ptag false rest) =
                      DNode.text s :: scanChildren cfg ptag false
                        (scanChildren cfg ptag false rest) := by
                    simp only [scanChildren]
                    rw [if_neg hacc, hh]
                    rfl
                  rw [he2, hrest]
              | .timeout =>
                  have he : scanChildren cfg ptag false (DNode.text s :: rest) =
                      DNode.text s :: scanChildren cfg ptag false rest := by
                    simp only [scanChildren]
                    rw [if_neg hacc, hh]
                    rfl
                  rw [he]
                  have he2 : scanChildren cfg ptag false
                      (DNode.text s :: scanChildren cfg ptag false rest) =
                      DNode.text s :: scanChildren cfg ptag false
                        (scanChildren cfg ptag false rest) := by
                    simp only [scanChildren]
                    rw [if_neg hacc, hh]
                    rfl
                  rw [he2, hrest]
        | .elem tag cls g :: rest =>
            have hsze : sizeOf (DNode.elem tag cls g) < N ∧ sizeOf rest < N := by
              have : sizeOf (DNode.elem tag cls g :: rest) =
                  1 + sizeOf (DNode.elem tag cls g) + sizeOf rest := by simp
              have hpos : 1 ≤ sizeOf (DNode.elem tag cls g) := by
                have : sizeOf (DNode.elem tag cls g) =
                    1 + sizeOf tag + sizeOf cls + sizeOf g := by simp
                omega
              omega
            have hhead := (ih _ hsze.1).1 inHL (DNode.elem tag cls g) (Nat.le_refl _)
            have hrest := (ih _ hsze.2).2 ptag inHL rest (Nat.le_refl _)
            show scanChildren cfg ptag inHL
              (scanSubtree cfg inHL (DNode.elem tag cls g) :: scanChildren cfg ptag inHL rest) = _
            have hse : ∀ tag2 cls2 g2,
                scanSubtree cfg inHL (DNode.elem tag cls g) = DNode.elem tag2 cls2 g2 →
                scanChildren cfg ptag inHL
                  (DNode.elem tag2 cls2 g2 :: scanChildren cfg ptag inHL rest) =
                  scanSubtree cfg inHL (DNode.elem tag2 cls2 g2) ::
                    scanChildren cfg ptag inHL (scanChildren cfg ptag inHL rest) := by
              intro tag2 cls2 g2 _
              simp only [scanChildren]
            match hres : scanSubtree cfg inHL (DNode.elem tag cls g) with
            | .text s2 =>
                exfalso
                simp only [scanSubtree] at hres
                exact DNode.noConfusion hres
            | .elem tag2 cls2 g2 =>
                rw [hse tag2 cls2 g2 hres, ← hres, hhead, hrest]
                simp only [scanChildren]
      refine ⟨?_, P2⟩
      intro b t hsz
      match t with
      | .text s => rfl
      | .elem tag cls ch =>
          have hszc : sizeOf ch ≤ N := by
            have : sizeOf (DNode.elem tag cls ch) =
                1 + sizeOf tag + sizeOf cls + sizeOf ch := by simp
            omega
          show scanSubtree cfg b
            (DNode.elem tag cls (scanChildren cfg tag (b || cls.contains HL_CLASS) ch)) = _
          simp only [scanSubtree]
          rw [P2 tag (b || cls.contains HL_CLASS) ch hszc]

/-! ## C4: text-content preservation -/

/-- C4: whenever `applyPattern` replaces a segment, the concatenation, in
order, of the produced plain-text segments and the literal texts of the
produced highlight markers is exactly the original segment text (the literals
are slices of the document text, so original casing and spacing are kept). -/
theorem c4_text_preservation (ci : Bool) (pats : List (List Tok))
    (look : List Char → Option String) (t : List Char) (segs : List Seg)
    (h : applyPattern ci pats look t = .replaced segs) : segsText segs = t := by
  unfold applyPattern at h
  by_cases hf : (firstMatch ci pats t).isSome
  · rw [if_pos hf] at h
    have := scanLoop_segsText h
    simpa [segsText] using this
  · rw [if_neg hf] at h
    cases h

theorem c4_text_preservation_witness :
    applyPattern true (mainPats D_C1) (lookCI D_C1) "Bill Clinton visited.".data =
      .replaced [.marker "Bill Clinton".data (WIKI_BASE ++ "Bill_Clinton"),
                 .plain " visited.".data] ∧
    segsText [.marker "Bill Clinton".data (WIKI_BASE ++ "Bill_Clinton"),
              .plain " visited.".data] = "Bill Clinton visited.".data :=
  ⟨by decide, c4_text_preservation true (mainPats D_C1) (lookCI D_C1) _ _ (by decide)⟩

/-! ## C3: lookup-miss atomicity -/

/-- C3: a match whose anchor lookup fails is treated as if it had not
occurred.  `applyPattern` leaves the segment untouched (`nomatch`) exactly
when no match in the exec chain resolves, and when it does replace the
segment it produces exactly one highlight marker per resolved match — misses
contribute nothing (their text stays in the plain segments, by C4). -/
theorem c3_lookup_miss_atomicity (ci : Bool) (pats : List (List Tok))
    (look : List Char → Option String) (t : List Char) (hp : ∀ p ∈ pats, p ≠ []) :
    (applyPattern ci pats look t = .nomatch ↔
      chainResCount ci pats look (t.length + 1) t = 0) ∧
    (∀ segs, applyPattern ci pats look t = .replaced segs →
      countMarkers segs = chainResCount ci pats look (t.length + 1) t) := by
  constructor
  · unfold applyPattern
    by_cases hf : (firstMatch ci pats t).isSome
    · rw [if_pos hf]
      have h2 : (scanLoop ci pats look (t.length + 1) t [] [] false = ScanRes.nomatch ↔
          (false = false ∧ chainResCount ci pats look (t.length + 1) t = 0)) :=
        scanLoop_nomatch_iff hp (by omega)
      rw [h2]
      simp
    · rw [if_neg hf]
      rw [Option.not_isSome_iff_eq_none] at hf
      simp [chainResCount, hf]
  · intro segs h
    unfold applyPattern at h
    by_cases hf : (firstMatch ci pats t).isSome
    · rw [if_pos hf] at h
      have h2 : countMarkers segs =
          countMarkers [] + chainResCount ci pats look (t.length + 1) t :=
        scanLoop_markers h
      simpa [countMarkers] using h2
    · rw [if_neg hf] at h
      cases h

theorem c3_lookup_miss_atomicity_witness :
    (∀ p ∈ mainPats D_C1, p ≠ []) ∧
    ((applyPattern true (mainPats D_C1) (lookCI D_C1) "nothing here".data = .nomatch ↔
      chainResCount true (mainPats D_C1) (lookCI D_C1) ("nothing here".data.length + 1)
        "nothing here".data = 0) ∧
    (∀ segs, applyPattern true (mainPats D_C1) (lookCI D_C1) "nothing here".data =
        .replaced segs →
      countMarkers segs = chainResCount true (mainPats D_C1) (lookCI D_C1)
        ("nothing here".data.length + 1) "nothing here".data)) :=
  ⟨by decide, c3_lookup_miss_atomicity _ _ _ _ (by decide)⟩

/-! ## C7: malformed entries are not rejected, and the loop hangs -/

/-- C7: the Pattern Compiler does not reject an empty-name entry.  The
compiled pattern then contains an empty alternative, which matches the empty
string at offset 0; `exec` returns that zero-length match without advancing
`lastIndex`, so the `applyPattern` loop never terminates: on every fuel bound
the model still times out, and `applyCI` on the text `"abc"` times out. -/
theorem c7_empty_name_nontermination :
    (∀ (fuel : Nat) (pend : List Char) (acc : List Seg) (dm : Bool),
      scanLoop true (mainPats D_C7) (lookCI D_C7) fuel "abc".data pend acc dm = .timeout) ∧
    applyCI D_C7 "abc".data = .timeout := by
  have key : ∀ (fuel : Nat) (pend : List Char) (acc : List Seg) (dm : Bool),
      scanLoop true (mainPats D_C7) (lookCI D_C7) fuel "abc".data pend acc dm = .timeout := by
    intro fuel
    induction fuel with
    | zero => intro pend acc dm; rfl
    | succ fuel ih =>
        intro pend acc dm
        have hf : firstMatch true (mainPats D_C7) "abc".data = some (0, 0, 0) := by decide
        have hl : lookCI D_C7 ((("abc".data).drop 0).take 0) = some "Empty" := by decide
        simp only [scanLoop, hf, hl]
        simp only [Nat.add_zero, List.drop_zero]
        exact ih _ _ _
  refine ⟨key, ?_⟩
  unfold applyCI applyPattern
  rw [if_pos (by decide)]
  exact key _ _ _ _

/-! ## C5: partition mutual exclusion per segment -/

/-- C5: the case-insensitive partition is tried first on a segment; the
case-sensitive partition runs on that segment exactly when the
case-insensitive pass produced no resolved match (and exists at all); the two
are never combined on one segment. -/
theorem c5_partition_mutual_exclusion (cfg : Config) (t : List Char) :
    (∀ segs, applyCI cfg t = .replaced segs → highlightTextNode cfg t = .replaced segs) ∧
    (applyCI cfg t = .nomatch → cfg.cs ≠ [] → highlightTextNode cfg t = applyCS cfg t) ∧
    (applyCI cfg t = .nomatch → cfg.cs = [] → highlightTextNode cfg t = .nomatch) := by
  refine ⟨?_, ?_, ?_⟩
  · intro segs h
    unfold highlightTextNode
    rw [h]
  · intro h hcs
    unfold highlightTextNode
    rw [h]
    simp [hcs]
  · intro h hcs
    unfold highlightTextNode
    rw [h]
    simp [hcs]

theorem c5_partition_mutual_exclusion_witness :
    (applyCI D_C2 "Alice and Trump".data =
        .replaced [.marker "Alice".data (WIKI_BASE ++ "A"),
                   .plain " and Trump".data] ∧
      highlightTextNode D_C2 "Alice and Trump".data =
        .replaced [.marker "Alice".data (WIKI_BASE ++ "A"),
                   .plain " and Trump".data]) ∧
    (applyCI D_C2 "just Trump".data = .nomatch ∧ D_C2.cs ≠ [] ∧
      highlightTextNode D_C2 "just Trump".data = applyCS D_C2 "just Trump".data) :=
  ⟨⟨by decide, (c5_partition_mutual_exclusion D_C2 _).1 _ (by decide)⟩,
   ⟨by decide, by decide, (c5_partition_mutual_exclusion D_C2 _).2.1 (by decide) (by decide)⟩⟩

/-! ## C10: mutation watcher filter -/

/-- C10: one callback invocation calls the subtree walker exactly on those
added nodes that are element nodes, not of an excluded tag, and not
themselves carrying the highlight class; added bare text nodes (and removed
nodes, which no code path reads) are never scanned. -/
theorem c10_watcher_filter :
    (∀ (batch : List MutationRecord) (n : DNode),
        n ∈ watcherTargets batch ↔
          (∃ r ∈ batch, n ∈ r.addedNodes) ∧ isScanTarget n = true) ∧
    (∀ (batch : List MutationRecord) (s : List Char),
        DNode.text s ∉ watcherTargets batch) := by
  constructor
  · intro batch n
    simp only [watcherTargets, List.mem_flatMap, List.mem_filter]
    tauto
  · intro batch s h
    simp only [watcherTargets, List.mem_flatMap, List.mem_filter] at h
    obtain ⟨r, _, _, hbad⟩ := h
    simp [isScanTarget] at hbad

/-! ## C8: exclusion zones check only the immediate parent -/

/-- C8 (amended): a text node whose immediate parent element's tag is in
`SKIP_TAGS` is left untouched — but the filter rejects only that text node,
so the walker still descends into child elements of an excluded container,
and text deeper inside may still be highlighted. -/
theorem c8_exclusion_immediate_parent (cfg : Config) (ptag : String) (inHL : Bool)
    (ch : List DNode) (h : SKIP_TAGS.contains ptag = true) :
    scanChildren cfg ptag inHL ch = ch.map (fun c =>
      match c with
      | .text s => .text s
      | .elem tag cls g => scanSubtree cfg inHL (.elem tag cls g)) := by
  induction ch with
  | nil => rfl
  | cons c rest ih =>
      have h2 : ptag ∈ SKIP_TAGS := by simpa using h
      match c with
      | .text s => simp [scanChildren, h2, ih]
      | .elem tag cls g => simp [scanChildren, ih]

theorem c8_exclusion_immediate_parent_witness :
    SKIP_TAGS.contains "SELECT" = true ∧
    scanChildren D_C8 "SELECT" false [.text "Bill".data] = [.text "Bill".data] :=
  ⟨by decide, by
    rw [c8_exclusion_immediate_parent D_C8 "SELECT" false [.text "Bill".data] (by decide)]
    rfl⟩

/-- C8 (counterexample): `"SELECT"` is in the exclusion set, yet a listed
name in a text node nested one element deeper (an `OPTION`) is still
highlighted — the filter looks only at the immediate parent tag, so "text
inside an excluded container is never highlighted" fails. -/
theorem c8_counterexample :
    SKIP_TAGS.contains "SELECT" = true ∧
    countMarkersTree (scanSubtree D_C8 false
      (.elem "SELECT" [] [.elem "OPTION" [] [.text "Bill".data]])) = 1 :=
  ⟨by decide, by decide⟩

/-! ## C2: re-scan idempotence -/

/-- C2 (amended): a second scan never alters existing highlight markers, and
when the dataset has no case-sensitive partition (and its names are
nonempty), a second scan over a subtree already processed produces no
additional markers and changes nothing at all: the scan is idempotent. -/
theorem c2_rescan_idempotent (cfg : Config) (b : Bool) (t : DNode)
    (h1 : cfg.cs = []) (hp : ∀ p ∈ mainPats cfg, p ≠ []) :
    scanSubtree cfg b (scanSubtree cfg b t) = scanSubtree cfg b t :=
  (scan_idem_aux cfg h1 hp (sizeOf t)).1 b t (Nat.le_refl _)

theorem c2_rescan_idempotent_witness :
    D_C1.cs = [] ∧ (∀ p ∈ mainPats D_C1, p ≠ []) ∧
    scanSubtree D_C1 false (scanSubtree D_C1 false
        (.elem "DIV" [] [.text "Bill saw Bill Clinton today.".data])) =
      scanSubtree D_C1 false (.elem "DIV" [] [.text "Bill saw Bill Clinton today.".data]) :=
  ⟨rfl, by decide,
    c2_rescan_idempotent D_C1 false
      (.elem "DIV" [] [.text "Bill saw Bill Clinton today.".data]) rfl (by decide)⟩

/-- C2 (counterexample): with a case-sensitive partition present, a second
scan over an already-scanned subtree produces an additional marker.  The
first scan's case-insensitive pass replaced the node, so the case-sensitive
pattern never ran on its remainder text; on the second scan the remainder is
its own node, the case-insensitive pass finds nothing, and the case-sensitive
pass adds a new marker. -/
theorem c2_counterexample :
    countMarkersTree (scanSubtree D_C2 false
      (.elem "DIV" [] [.text "Alice and Trump".data])) = 1 ∧
    countMarkersTree (scanSubtree D_C2 false (scanSubtree D_C2 false
      (.elem "DIV" [] [.text "Alice and Trump".data]))) = 2 ∧
    scanSubtree D_C2 false (scanSubtree D_C2 false
        (.elem "DIV" [] [.text "Alice and Trump".data])) ≠
      scanSubtree D_C2 false (.elem "DIV" [] [.text "Alice and Trump".data]) := by
  refine ⟨by decide, by decide, ?_⟩
  intro h
  have h2 := congrArg countMarkersTree h
  have e1 : countMarkersTree (scanSubtree D_C2 false
      (.elem "DIV" [] [.text "Alice and Trump".data])) = 1 := by decide
  have e2 : countMarkersTree (scanSubtree D_C2 false (scanSubtree D_C2 false
      (.elem "DIV" [] [.text "Alice and Trump".data]))) = 2 := by decide
  rw [e1, e2] at h2
  cases h2

/-! ## C6: case-sensitivity partition semantics -/

theorem nameOcc_space_inv {ci : Bool} {nm u : List Char}
    (h : NameOcc ci (' ' :: nm) u) :
    ∃ run m, u = run ++ m ∧ run ≠ [] ∧ (∀ c ∈ run, jsWs c = true) ∧
      NameOcc ci nm m := by
  cases h with
  | lit c x nm2 m2 hc _ _ => exact absurd rfl hc
  | sp run nm2 m2 hne hws hr => exact ⟨run, m2, rfl, hne, hws, hr⟩

/-- Wait-free direction: a successful greedy match is an occurrence. -/
theorem matchToks_nameOcc {ci : Bool} :
    ∀ {s : List Char} {nm : List Char} {len : Nat},
      matchToks ci (nameToks nm) s = some len → NameOcc ci nm (s.take len) := by
  intro s
  induction s with
  | nil =>
      intro nm len h
      match nm with
      | [] =>
          simp [nameToks, matchToks] at h
          subst h
          exact NameOcc.nil
      | c :: nm' => simp [nameToks, matchToks] at h
  | cons x xs ih =>
      intro nm len h
      match nm with
      | [] =>
          simp [nameToks, matchToks] at h
          subst h
          exact NameOcc.nil
      | c :: nm' =>
          by_cases hc : c = ' '
          · subst hc
            have he : nameToks (' ' :: nm') = .ws :: nameToks nm' := by
              simp [nameToks]
            rw [he] at h
            simp only [matchToks] at h
            by_cases hw : jsWs x = true
            · simp only [hw, if_true] at h
              match hm : matchToks ci (.ws :: nameToks nm') xs with
              | some n =>
                  rw [hm] at h
                  cases h
                  rw [← he] at hm
                  have hocc := ih hm
                  obtain ⟨run, m, hu, hne, hws, hr⟩ := nameOcc_space_inv hocc
                  rw [List.take_succ_cons, hu]
                  have : x :: (run ++ m) = (x :: run) ++ m := rfl
                  rw [this]
                  refine NameOcc.sp (x :: run) nm' m (by simp) ?_ hr
                  intro d hd
                  rcases List.mem_cons.mp hd with rfl | hd
                  · exact hw
                  · exact hws d hd
              | none =>
                  rw [hm] at h
                  simp only [Option.map_eq_some'] at h
                  obtain ⟨n, hn, rfl⟩ := h
                  rw [List.take_succ_cons]
                  have : x :: xs.take n = [x] ++ xs.take n := rfl
                  rw [this]
                  refine NameOcc.sp [x] nm' (xs.take n) (by simp) ?_ (ih hn)
                  intro d hd
                  rcases List.mem_singleton.mp hd with rfl
                  exact hw
            · simp [hw] at h
          · have he : nameToks (c :: nm') = .lit c :: nameToks nm' := by
              simp [nameToks, hc]
            rw [he] at h
            simp only [matchToks] at h
            by_cases hcm : charMatch ci c x = true
            · simp only [hcm, if_true, Option.map_eq_some'] at h
              obtain ⟨n, hn, rfl⟩ := h
              rw [List.take_succ_cons]
              exact NameOcc.lit c x nm' (xs.take n) hc hcm (ih hn)
            · simp [hcm] at h

theorem ws_prefix_isSome {ci : Bool} {ts : List Tok} :
    ∀ {run rest : List Char}, run ≠ [] → (∀ c ∈ run, jsWs c = true) →
      (matchToks ci ts rest).isSome →
      (matchToks ci (.ws :: ts) (run ++ rest)).isSome := by
  intro run
  induction run with
  | nil => intro rest hne _ _; exact absurd rfl hne
  | cons x run' ih =>
      intro rest hne hws hrest
      have hx : jsWs x = true := hws x (by simp)
      by_cases hre : run' = []
      · subst hre
        simp only [List.cons_append, List.nil_append, matchToks, hx, if_true]
        match hm : matchToks ci (.ws :: ts) rest with
        | some n => simp
        | none =>
            rw [Option.isSome_iff_exists] at hrest
            obtain ⟨n, hn⟩ := hrest
            simp [hn]
      · have hinner := ih hre (fun c hc => hws c (by simp [hc])) hrest
        rw [Option.isSome_iff_exists] at hinner
        obtain ⟨n, hn⟩ := hinner
        simp only [List.cons_append, matchToks, hx, if_true, List.append_eq]
        rw [hn]
        simp

/-- Completeness direction: an occurrence at the front of the text makes the
greedy matcher succeed. -/
theorem nameOcc_matchToks {ci : Bool} {nm m : List Char}
    (h : NameOcc ci nm m) :
    ∀ r, (matchToks ci (nameToks nm) (m ++ r)).isSome := by
  induction h with
  | nil => intro r; simp [nameToks, matchToks]
  | lit c x nm' m' hc hcm _ ih =>
      intro r
      have he : nameToks (c :: nm') = .lit c :: nameToks nm' := by
        simp [nameToks, hc]
      rw [he]
      simp only [List.cons_append, matchToks, hcm, if_true]
      have := ih r
      rw [Option.isSome_iff_exists] at this
      obtain ⟨n, hn⟩ := this
      simp [hn]
  | sp run nm' m' hne hws _ ih =>
      intro r
      have he : nameToks (' ' :: nm') = .ws :: nameToks nm' := by
        simp [nameToks]
      rw [he, List.append_assoc]
      exact ws_prefix_isSome hne hws (ih r)

/-- C6: a compiled name matches at the front of a text exactly when the text
starts with an occurrence of that name under the partition's comparison:
exact letter-casing (whitespace runs aside) for the case-sensitive matcher,
`toLower`-equality for the case-insensitive one.  Concretely, the
case-sensitive pattern for "Trump" rejects "trump card" but accepts
"Trump card", while the case-insensitive matcher accepts any casing. -/
theorem c6_case_sensitivity_partition :
    (∀ (ci : Bool) (nm s : List Char),
        (∃ len, matchToks ci (nameToks nm) s = some len) ↔
        (∃ m r, s = m ++ r ∧ NameOcc ci nm m)) ∧
    matchToks false (nameToks "Trump".data) "trump card".data = none ∧
    matchToks false (nameToks "Trump".data) "Trump card".data = some 5 ∧
    matchToks true (nameToks "Trump".data) "trump card".data = some 5 := by
  refine ⟨?_, by decide, by decide, by decide⟩
  intro ci nm s
  constructor
  · rintro ⟨len, h⟩
    exact ⟨s.take len, s.drop len, (List.take_append_drop _ _).symm,
      matchToks_nameOcc h⟩
  · rintro ⟨m, r, rfl, hocc⟩
    have := nameOcc_matchToks hocc r
    rwa [Option.isSome_iff_exists] at this

/-! ## Character-level lemmas for the case-insensitive comparison -/

theorem char_eq_of_toNat_eq {c d : Char} (h : c.toNat = d.toNat) : c = d :=
  Char.eq_of_val_eq (UInt32.eq_of_toBitVec_eq (BitVec.eq_of_toNat_eq h))

theorem char_eq_iff_toNat {c d : Char} : c = d ↔ c.toNat = d.toNat :=
  ⟨fun h => by rw [h], char_eq_of_toNat_eq⟩

theorem char_toNat_ofNat_small {n : Nat} (h : n < 55296) : (Char.ofNat n).toNat = n := by
  unfold Char.ofNat
  rw [dif_pos (Or.inl h : n.isValidChar)]
  rfl

theorem toNat_toLower_of_upper {c : Char} (h : 65 ≤ c.toNat ∧ c.toNat ≤ 90) :
    (Char.toLower c).toNat = c.toNat + 32 := by
  unfold Char.toLower
  rw [if_pos h]
  exact char_toNat_ofNat_small (by omega)

theorem toLower_eq_self_of_not_upper {c : Char} (h : ¬(65 ≤ c.toNat ∧ c.toNat ≤ 90)) :
    Char.toLower c = c := by
  unfold Char.toLower
  rw [if_neg h]

theorem jsWs_iff_toNat {c : Char} :
    jsWs c = true ↔ (c.toNat = 32 ∨ c.toNat = 9 ∨ c.toNat = 10 ∨ c.toNat = 13 ∨
      c.toNat = 11 ∨ c.toNat = 12) := by
  have e1 : (' ' : Char).toNat = 32 := rfl
  have e2 : ('\t' : Char).toNat = 9 := rfl
  have e3 : ('\n' : Char).toNat = 10 := rfl
  have e4 : ('\r' : Char).toNat = 13 := rfl
  have e5 : ('\x0b' : Char).toNat = 11 := rfl
  have e6 : ('\x0c' : Char).toNat = 12 := rfl
  simp only [jsWs, Bool.or_eq_true, decide_eq_true_eq, char_eq_iff_toNat,
    e1, e2, e3, e4, e5, e6]
  tauto

theorem jsWs_toLower (c : Char) : jsWs (Char.toLower c) = jsWs c := by
  by_cases h : 65 ≤ c.toNat ∧ c.toNat ≤ 90
  · have h1 := toNat_toLower_of_upper h
    have hws1 : jsWs (Char.toLower c) = false := by
      by_contra hcon
      rw [Bool.not_eq_false, jsWs_iff_toNat, h1] at hcon
      omega
    have hws2 : jsWs c = false := by
      by_contra hcon
      rw [Bool.not_eq_false, jsWs_iff_toNat] at hcon
      omega
    rw [hws1, hws2]
  · rw [toLower_eq_self_of_not_upper h]

theorem toLower_eq_space_iff {x : Char} : Char.toLower x = ' ' ↔ x = ' ' := by
  constructor
  · intro h
    by_cases hc : 65 ≤ x.toNat ∧ x.toNat ≤ 90
    · exfalso
      have h1 := toNat_toLower_of_upper hc
      rw [h] at h1
      have e1 : (' ' : Char).toNat = 32 := rfl
      omega
    · rwa [toLower_eq_self_of_not_upper hc] at h
  · intro h
    rw [h]
    decide

/-! ## Single-spaced text lemmas -/

theorem ss_tail {c : Char} {rest : List Char} (h : singleSpaced (c :: rest) = true) :
    singleSpaced rest = true := by
  simp only [singleSpaced, Bool.and_eq_true] at h
  exact h.2

theorem ss_ws_head {c : Char} {rest : List Char} (h : singleSpaced (c :: rest) = true)
    (hw : jsWs c = true) : c = ' ' ∧ headNotWs rest = true := by
  simp only [singleSpaced, Bool.and_eq_true, Bool.or_eq_true, Bool.not_eq_true'] at h
  rcases h.1 with h1 | h1
  · rw [h1] at hw; cases hw
  · simp only [Bool.and_eq_true, beq_iff_eq] at h1
    exact h1

theorem ss_drop {s : List Char} (h : singleSpaced s = true) :
    ∀ n, singleSpaced (s.drop n) = true := by
  induction s with
  | nil => intro n; simp [singleSpaced]
  | cons c rest ih =>
      intro n
      match n with
      | 0 => exact h
      | n + 1 => exact ih (ss_tail h) n

theorem headNotWs_take {rest : List Char} (h : headNotWs rest = true) :
    ∀ n, headNotWs (rest.take n) = true := by
  intro n
  match rest, n with
  | [], _ => simp [headNotWs]
  | _ :: _, 0 => simp [headNotWs]
  | d :: _, n + 1 => exact h

theorem ss_take {s : List Char} (h : singleSpaced s = true) :
    ∀ n, singleSpaced (s.take n) = true := by
  induction s with
  | nil => intro n; simp [singleSpaced]
  | cons c rest ih =>
      intro n
      match n with
      | 0 => rfl
      | n + 1 =>
          simp only [List.take_succ_cons, singleSpaced, Bool.and_eq_true]
          refine ⟨?_, ih (ss_tail h) n⟩
          simp only [singleSpaced, Bool.and_eq_true] at h
          rcases Bool.or_eq_true _ _ |>.mp h.1 with h1 | h1
          · simp [h1]
          · simp only [Bool.and_eq_true] at h1
            rw [Bool.or_eq_true]
            right
            rw [Bool.and_eq_true]
            exact ⟨h1.1, headNotWs_take h1.2 n⟩

/-! ## The two variants compile equivalent matchers on single-spaced text -/

/-- On single-spaced text the `\s+` token of the newer pattern consumes
exactly one space, which is what the older pattern's literal space consumes,
so the two compiled patterns match identically. -/
theorem matchToks_new_old : ∀ (s : List Char), singleSpaced s = true →
    ∀ (nm : List Char),
      matchToks true (nameToks nm) s = matchToks true (nameToksOld nm) s := by
  intro s
  induction s with
  | nil =>
      intro _ nm
      match nm with
      | [] => rfl
      | c :: nm' =>
          rw [matchToks_nil_text (by simp [nameToks]),
            matchToks_nil_text (by simp [nameToksOld])]
  | cons x xs ih =>
      intro hss nm
      match nm with
      | [] => rfl
      | c :: nm' =>
          by_cases hc : c = ' '
          · subst hc
            have hnew : nameToks (' ' :: nm') = .ws :: nameToks nm' := by
              simp [nameToks]
            have hold : nameToksOld (' ' :: nm') = .lit ' ' :: nameToksOld nm' := by
              simp [nameToksOld]
            rw [hnew, hold]
            simp only [matchToks]
            by_cases hw : jsWs x = true
            · obtain ⟨hx, hhead⟩ := ss_ws_head hss hw
              subst hx
              have hinner : matchToks true (.ws :: nameToks nm') xs = none := by
                match xs with
                | [] => rfl
                | y :: ys =>
                    simp only [headNotWs, Bool.not_eq_true'] at hhead
                    simp [matchToks, hhead]
              have hcm : charMatch true ' ' ' ' = true := by decide
              simp only [hw, if_true, hinner, hcm, ih (ss_tail hss) nm']
            · have hcm : charMatch true ' ' x = false := by
                rw [Bool.eq_false_iff]
                intro hcon
                simp only [charMatch, if_true, decide_eq_true_eq] at hcon
                have : Char.toLower x = ' ' := by
                  rw [← hcon]
                  decide
                rw [toLower_eq_space_iff] at this
                rw [this] at hw
                simp [jsWs] at hw
              simp [hw, hcm]
          · have hnew : nameToks (c :: nm') = .lit c :: nameToks nm' := by
              simp [nameToks, hc]
            have hold : nameToksOld (c :: nm') = .lit c :: nameToksOld nm' := by
              simp [nameToksOld]
            rw [hnew, hold]
            simp only [matchToks]
            by_cases hcm : charMatch true c x = true
            · simp [hcm, ih (ss_tail hss) nm']
            · simp [hcm]

theorem altMatch_map_congr (es : List NameEntry) {s : List Char}
    (hss : singleSpaced s = true) :
    altMatch true (es.map (fun e => nameToks e.name)) s =
      altMatch true (es.map (fun e => nameToksOld e.name)) s := by
  induction es with
  | nil => rfl
  | cons e es ih =>
      simp only [List.map_cons, altMatch, matchToks_new_old s hss e.name, ih]

theorem altMatch_new_old (ds : List NameEntry) {s : List Char}
    (hss : singleSpaced s = true) :
    altMatch true (makePattern ds) s = altMatch true (makePatternOld ds) s := by
  unfold makePattern makePatternOld
  match sortByLenDesc ds with
  | [] => rfl
  | f :: fs => exact altMatch_map_congr (f :: fs) hss

theorem firstMatch_new_old (ds : List NameEntry) : ∀ {s : List Char},
    singleSpaced s = true →
    firstMatch true (makePattern ds) s = firstMatch true (makePatternOld ds) s := by
  intro s
  induction s with
  | nil =>
      intro hss
      simp only [firstMatch, altMatch_new_old ds hss]
  | cons c rest ih =>
      intro hss
      simp only [firstMatch, altMatch_new_old ds hss]
      match altMatch true (makePatternOld ds) (c :: rest) with
      | some (j, len) => rfl
      | none => rw [ih (ss_tail hss)]

/-! ## Matched literals of the old pattern are case-variants of the name -/

theorem matchToksOld_forall2 :
    ∀ {nm : List Char} {s : List Char} {len : Nat},
      matchToks true (nameToksOld nm) s = some len →
      len = nm.length ∧
        List.Forall₂ (fun c x => Char.toLower c = Char.toLower x) nm (s.take len) := by
  intro nm
  induction nm with
  | nil =>
      intro s len h
      simp [nameToksOld, matchToks] at h
      subst h
      exact ⟨rfl, List.Forall₂.nil⟩
  | cons c nm' ih =>
      intro s len h
      have he : nameToksOld (c :: nm') = .lit c :: nameToksOld nm' := by
        simp [nameToksOld]
      rw [he] at h
      match s with
      | [] => simp [matchToks] at h
      | x :: xs =>
          simp only [matchToks] at h
          by_cases hcm : charMatch true c x = true
          · simp only [hcm, if_true, Option.map_eq_some'] at h
            obtain ⟨n, hn, rfl⟩ := h
            obtain ⟨hlen, hf2⟩ := ih hn
            refine ⟨by simp [hlen], ?_⟩
            rw [List.take_succ_cons]
            refine List.Forall₂.cons ?_ hf2
            simpa [charMatch] using hcm
          · simp [hcm] at h

/-! ## Normalization is the identity on well-formed matched literals -/

theorem collapseWsAux_id :
    ∀ {m : List Char}, singleSpaced m = true →
      (collapseWsAux false m = m ∧ (headNotWs m = true → collapseWsAux true m = m)) := by
  intro m
  induction m with
  | nil => intro _; exact ⟨rfl, fun _ => rfl⟩
  | cons c rest ih =>
      intro hss
      obtain ⟨ih1, ih2⟩ := ih (ss_tail hss)
      constructor
      · by_cases hw : jsWs c = true
        · obtain ⟨hc, hhead⟩ := ss_ws_head hss hw
          subst hc
          simp [collapseWsAux, hw, ih2 hhead]
        · simp only [collapseWsAux, hw]
          simp only [Bool.false_eq_true, if_false]
          rw [ih1]
      · intro hhd
        simp only [headNotWs, Bool.not_eq_true'] at hhd
        simp only [collapseWsAux, hhd]
        simp only [Bool.false_eq_true, if_false]
        rw [ih1]

theorem collapseWs_id {m : List Char} (hss : singleSpaced m = true) :
    collapseWs m = m :=
  (collapseWsAux_id hss).1

theorem dropWhile_id_of_headNotWs {m : List Char} (h : headNotWs m = true) :
    m.dropWhile jsWs = m := by
  match m with
  | [] => rfl
  | d :: rest =>
      simp only [headNotWs, Bool.not_eq_true'] at h
      simp [List.dropWhile, h]

theorem trimWs_id {m : List Char} (h1 : headNotWs m = true)
    (h2 : headNotWs m.reverse = true) : trimWs m = m := by
  unfold trimWs
  rw [dropWhile_id_of_headNotWs h1, dropWhile_id_of_headNotWs h2,
    List.reverse_reverse]

/-! ## Transport of well-formedness along case-insensitive agreement -/

theorem forall2_lower_ws {nm m : List Char}
    (h : List.Forall₂ (fun c x => Char.toLower c = Char.toLower x) nm m) :
    List.Forall₂ (fun c x => jsWs c = jsWs x ∧ (c = ' ' ↔ x = ' ')) nm m := by
  refine h.imp ?_
  intro c x hcx
  constructor
  · rw [← jsWs_toLower c, ← jsWs_toLower x, hcx]
  · constructor
    · intro hc
      subst hc
      have : Char.toLower x = ' ' := by
        rw [← hcx]
        decide
      rwa [toLower_eq_space_iff] at this
    · intro hx
      subst hx
      have : Char.toLower c = ' ' := by
        rw [hcx]
        decide
      rwa [toLower_eq_space_iff] at this

theorem forall2_headNotWs {nm m : List Char}
    (h : List.Forall₂ (fun c x => jsWs c = jsWs x ∧ (c = ' ' ↔ x = ' ')) nm m) :
    headNotWs nm = headNotWs m := by
  cases h with
  | nil => rfl
  | cons hcx _ => simp [headNotWs, hcx.1]

theorem forall2_singleSpaced {nm m : List Char}
    (h : List.Forall₂ (fun c x => jsWs c = jsWs x ∧ (c = ' ' ↔ x = ' ')) nm m)
    (hss : singleSpaced nm = true) : singleSpaced m = true := by
  induction h with
  | nil => rfl
  | cons hcx hrest ih =>
      rename_i c x nm' m'
      simp only [singleSpaced, Bool.and_eq_true] at hss ⊢
      refine ⟨?_, ih hss.2⟩
      rcases Bool.or_eq_true _ _ |>.mp hss.1 with h1 | h1
      · rw [Bool.or_eq_true]
        left
        simp only [Bool.not_eq_true'] at h1 ⊢
        rw [← hcx.1]
        exact h1
      · simp only [Bool.and_eq_true, beq_iff_eq] at h1
        rw [Bool.or_eq_true]
        right
        rw [Bool.and_eq_true, beq_iff_eq]
        refine ⟨hcx.2.mp h1.1, ?_⟩
        rw [← forall2_headNotWs hrest]
        exact h1.2

theorem forall2_lowerL {nm m : List Char}
    (h : List.Forall₂ (fun c x => Char.toLower c = Char.toLower x) nm m) :
    lowerL m = lowerL nm := by
  induction h with
  | nil => rfl
  | cons hcx _ ih =>
      simp only [lowerL, List.map_cons] at ih ⊢
      rw [ih, hcx]

/-! ## Every old-pattern match on a well-formed dataset resolves -/

theorem old_lit_resolves {ds : List NameEntry}
    (hnames : ∀ e ∈ ds, nameOK e.name = true) {s : List Char} {j len : Nat}
    (halt : altMatch true (makePatternOld ds) s = some (j, len)) (hds : ds ≠ []) :
    ∃ e, e ∈ ds ∧
      anchorMapCI ds (lowerL (normalizeWs (s.take len))) = some e.anchor := by
  obtain ⟨p, hget, hm⟩ := altMatch_get halt
  have hpats : makePatternOld ds = (sortByLenDesc ds).map (fun e => nameToksOld e.name) := by
    unfold makePatternOld
    match hs : sortByLenDesc ds with
    | [] => exact absurd (sortByLenDesc_eq_nil.mp hs) hds
    | f :: fs => rfl
  rw [hpats, List.get?_map] at hget
  match hg : (sortByLenDesc ds).get? j with
  | none => rw [hg] at hget; cases hget
  | some e0 =>
      rw [hg] at hget
      simp only [Option.map_some'] at hget
      cases hget
      have he0 : e0 ∈ ds := mem_sortByLenDesc.mp (List.get?_mem hg)
      have hok := hnames e0 he0
      simp only [nameOK, Bool.and_eq_true] at hok
      obtain ⟨⟨⟨hssn, hhd⟩, hlast⟩, _⟩ := hok
      obtain ⟨hlen, hf2⟩ := matchToksOld_forall2 hm
      set m := s.take len with hmdef
      have hws2 := forall2_lower_ws hf2
      have hssm : singleSpaced m = true := forall2_singleSpaced hws2 hssn
      have hhdm : headNotWs m = true := by
        rw [← forall2_headNotWs hws2]
        exact hhd
      have hlastm : headNotWs m.reverse = true := by
        rw [← forall2_headNotWs (List.rel_reverse hws2)]
        exact hlast
      have hnorm : normalizeWs m = m := by
        unfold normalizeWs
        rw [collapseWs_id hssm, trimWs_id hhdm hlastm]
      have hkey : lowerL m = lowerL e0.name := forall2_lowerL hf2
      rw [hnorm, hkey]
      unfold anchorMapCI
      have hex : ∃ x ∈ ds.reverse, (decide (lowerL x.name = lowerL e0.name)) = true := by
        refine ⟨e0, by simpa using he0, by simp⟩
      have hfind := List.find?_isSome.mpr hex
      match hf : ds.reverse.find? (fun e => decide (lowerL e.name = lowerL e0.name)) with
      | none => rw [hf] at hfind; cases hfind
      | some efound =>
          refine ⟨efound, ?_, by rw [hf]; rfl⟩
          have := List.mem_of_find?_eq_some hf
          simpa using this

/-! ## Old and new per-node loops agree on well-formed input -/

theorem old_new_loops_eq (ds : List NameEntry)
    (hnames : ∀ e ∈ ds, nameOK e.name = true)
    (hanch : ∀ e ∈ ds, e.anchor ≠ "") (hds : ds ≠ []) :
    ∀ (fuel : Nat) (s : List Char) (acc : List Seg) (dm : Bool),
      singleSpaced s = true →
      (dm = true ∨ (firstMatch true (makePatternOld ds) s).isSome) →
      oldScanLoop (makePatternOld ds) (oldLook ds) fuel s acc =
        scanLoop true (mainPats ⟨ds, []⟩) (lookCI ⟨ds, []⟩) fuel s [] acc dm := by
  intro fuel
  induction fuel with
  | zero => intro s acc dm _ _; rfl
  | succ fuel ih =>
      intro s acc dm hss hdm
      simp only [oldScanLoop, scanLoop]
      rw [show firstMatch true (mainPats ⟨ds, []⟩) s =
        firstMatch true (makePatternOld ds) s from firstMatch_new_old ds hss]
      match hf : firstMatch true (makePatternOld ds) s with
      | none =>
          rcases hdm with hdm | hdm
          · subst hdm
            simp
          · rw [hf] at hdm
            simp at hdm
      | some (i, j, len) =>
          dsimp only
          have halt := (firstMatch_spec hf).1
          obtain ⟨e, hmem, hanchor⟩ := old_lit_resolves hnames halt hds
          have holdl : oldLook ds ((s.drop i).take len) = some e.anchor := hanchor
          have hnewl : lookCI ⟨ds, []⟩ ((s.drop i).take len) = some e.anchor := by
            unfold lookCI lookupAnchor
            simp only
            rw [if_neg (by simp)]
            show jsTruthy (anchorMapCI ds _) = _
            rw [hanchor]
            simp [jsTruthy, hanch e hmem]
          rw [holdl, hnewl]
          dsimp only
          have hcond : (s.take i = []) ↔ (i = 0) := by
            have hil := firstMatch_start_le hf
            constructor
            · intro hc
              rcases List.take_eq_nil_iff.mp hc with h | h
              · exact h
              · subst h
                simp at hil
                omega
            · intro h
              subst h
              simp
          have hX : (if i = 0 then ([] : List Seg) else [.plain (s.take i)]) =
              (if ([] : List Char) ++ s.take i = [] then []
               else [.plain (([] : List Char) ++ s.take i)]) := by
            by_cases hi : i = 0
            · simp [hi]
            · have hne : s.take i ≠ [] := fun hc => hi (hcond.mp hc)
              simp [hi, hne]
          rw [← hX]
          exact ih (s.drop (i + len)) _ true (ss_drop hss _) (Or.inl rfl)

/-! ## C9: equivalence of the two implementation variants -/

/-- C9 (amended): on a nonempty single-partition dataset whose names are
nonempty, single-spaced, with no leading/trailing whitespace and nonempty
anchors, and on segment texts whose whitespace consists solely of single
spaces, the older single-list implementation produces exactly the same
decomposition (same literals, same resolved URLs, same unchanged-on-no-match
behaviour) as the two-partition implementation restricted to its
case-insensitive partition.  Outside these conditions they differ: the older
variant's space-to-`\s+` rewrite never fires (its regex looks for an escaped
space that `escapeRegex` never produces), so multi-space or newline-separated
occurrences match only in the newer variant; and the older variant does not
skip unresolved lookups. -/
theorem c9_variant_equivalence (ds : List NameEntry) (t : List Char)
    (hds : ds ≠ []) (hnames : ∀ e ∈ ds, nameOK e.name = true)
    (hanch : ∀ e ∈ ds, e.anchor ≠ "") (hss : singleSpaced t = true) :
    oldHighlightTextNode ds t = highlightTextNode ⟨ds, []⟩ t := by
  rw [highlightTextNode_cs_nil rfl]
  unfold oldHighlightTextNode applyCI applyPattern
  rw [show firstMatch true (mainPats ⟨ds, []⟩) t =
    firstMatch true (makePatternOld ds) t from firstMatch_new_old ds hss]
  by_cases hs : (firstMatch true (makePatternOld ds) t).isSome
  · rw [if_pos hs, if_pos hs]
    exact old_new_loops_eq ds hnames hanch hds (t.length + 1) t [] false hss (Or.inr hs)
  · rw [if_neg hs, if_neg hs]

theorem c9_variant_equivalence_witness :
    ([⟨"Bill Clinton".data, "BC"⟩] : List NameEntry) ≠ [] ∧
    (∀ e ∈ ([⟨"Bill Clinton".data, "BC"⟩] : List NameEntry), nameOK e.name = true) ∧
    (∀ e ∈ ([⟨"Bill Clinton".data, "BC"⟩] : List NameEntry), e.anchor ≠ "") ∧
    singleSpaced "Also bill clinton visited.".data = true ∧
    oldHighlightTextNode [⟨"Bill Clinton".data, "BC"⟩] "Also bill clinton visited.".data =
      highlightTextNode ⟨[⟨"Bill Clinton".data, "BC"⟩], []⟩ "Also bill clinton visited.".data :=
  ⟨by decide, by decide, by decide, by decide,
    c9_variant_equivalence _ _ (by decide) (by decide) (by decide) (by decide)⟩

/-- C9 (counterexample): on the text "Bill  Clinton" (two spaces) the newer
implementation matches and highlights (its `\s+` token absorbs the double
space) while the older one does not match at all — the decompositions differ,
refuting the claimed equivalence for every segment text. -/
theorem c9_counterexample :
    oldHighlightTextNode [⟨"Bill Clinton".data, "BC"⟩] "Bill  Clinton".data = .nomatch ∧
    highlightTextNode ⟨[⟨"Bill Clinton".data, "BC"⟩], []⟩ "Bill  Clinton".data =
      .replaced [.marker "Bill  Clinton".data (WIKI_BASE ++ "BC")] ∧
    oldHighlightTextNode [⟨"Bill Clinton".data, "BC"⟩] "Bill  Clinton".data ≠
      highlightTextNode ⟨[⟨"Bill Clinton".data, "BC"⟩], []⟩ "Bill  Clinton".data := by
  refine ⟨by decide, by decide, by decide⟩

/-! ## C1: longest-match precedence -/

/-- C1 (amended): the compiled alternation of `D_C1` lists "Bill Clinton"
first (length-descending sort), so at any position where "Bill Clinton"
matches, the match the scan selects is that first alternative — the longer
name wins at every shared start position; in particular the scan of
"Bill Clinton visited." yields exactly one marker, for "Bill Clinton",
resolving to `Bill_Clinton`, and none for "Bill". -/
theorem c1_longest_match_precedence :
    (∀ (s : List Char) (i j len : Nat),
        firstMatch true (mainPats D_C1) s = some (i, j, len) →
        (matchToks true (nameToks "Bill Clinton".data) (s.drop i)).isSome → j = 0) ∧
    highlightTextNode D_C1 "Bill Clinton visited.".data =
      .replaced [.marker "Bill Clinton".data (WIKI_BASE ++ "Bill_Clinton"),
                 .plain " visited.".data] := by
  constructor
  · intro s i j len hf hbc
    have halt := (firstMatch_spec hf).1
    have hm : mainPats D_C1 =
        [nameToks "Bill Clinton".data, nameToks "Bill".data] := by decide
    rw [hm] at halt
    simp only [altMatch] at halt
    match hx : matchToks true (nameToks "Bill Clinton".data) (s.drop i) with
    | some l => rw [hx] at halt; cases halt; rfl
    | none => rw [hx] at hbc; cases hbc
  · decide

theorem c1_longest_match_precedence_witness :
    firstMatch true (mainPats D_C1) "xBill Clinton".data = some (1, 0, 12) ∧
    (matchToks true (nameToks "Bill Clinton".data) ("xBill Clinton".data.drop 1)).isSome ∧
    (0 : Nat) = 0 :=
  ⟨by decide, by decide,
    c1_longest_match_precedence.1 "xBill Clinton".data 1 0 12 (by decide) (by decide)⟩

/-- C1 (counterexample): for the claim's own dataset and the text
"Bill saw Bill Clinton." — a segment text containing the longer form — the
scan emits a marker for the shorter name "Bill" as well, so "highlights only
the longer name, exactly once" fails for texts where the shorter name also
occurs on its own. -/
theorem c1_counterexample :
    highlightTextNode D_C1 "Bill saw Bill Clinton.".data =
      .replaced [.marker "Bill".data (WIKI_BASE ++ "Bill_X"),
                 .plain " saw ".data,
                 .marker "Bill Clinton".data (WIKI_BASE ++ "Bill_Clinton"),
                 .plain ".".data] := by
  decide

end EpsteinHL
